import Mathlib

/-!
# GoWiki (`wiki.go`): the markup renderer and the request handlers

A shallow embedding of `wiki.go`.  Page bodies, titles and request paths are
sequences of characters.  The program drives everything through Go's `regexp`
package, so the first part of this file models the fragment of that package
the program uses: patterns that are a concatenation of literals, line and text
anchors and one greedy character-class repetition, matched with leftmost-first
(backtracking) priority, together with `ReplaceAll` and `MatchString`.
-/

namespace GoWiki

/-- A string of the program: the sequence of its characters. -/
abbrev Str := List Char

/-! ## The `regexp` fragment -/

/-- A character class: `.` (any character but a newline) or a bracket
expression made of inclusive ranges. -/
inductive CharClass where
  | dot : CharClass
  | ranges : List (Char × Char) → CharClass
  deriving DecidableEq, Repr

/-- Membership of a character in a class. -/
def CharClass.mem : CharClass → Char → Bool
  | .dot, c => c != '\n'
  | .ranges rs, c => rs.any fun r => decide (r.1.toNat ≤ c.toNat) && decide (c.toNat ≤ r.2.toNat)

/-- One element of a pattern.  A pattern is the concatenation of its nodes. -/
inductive Node where
  /-- a literal character (also an escaped one, such as `\*`) -/
  | lit : Char → Node
  /-- the anchor `^` under the flag `(?m)`: at the start of the text or after a newline -/
  | bol : Node
  /-- the anchor `$` under the flag `(?m)`: at the end of the text or before a newline -/
  | eol : Node
  /-- the anchor `^` without the flag: at the start of the text -/
  | bot : Node
  /-- the anchor `$` without the flag: at the end of the text -/
  | eot : Node
  /-- greedy repetition `cls{min,}` of a class; with `cap` it is group 1 -/
  | rep : CharClass → Nat → Bool → Node
  deriving DecidableEq, Repr

/-- A compiled pattern. -/
abbrev Regexp := List Node

/-- The outcome of a successful match attempt at one position: the text of
group 1, the character just before the end of the match, the unread input. -/
structure Found where
  cap : Str
  last : Option Char
  rest : Str
  deriving DecidableEq, Repr

/-- Greedy repetition of a class followed by the continuation `k`: one more
character is taken whenever the class allows and the continuation can still
succeed afterwards; the repetition stops earlier only when it has to, and never
below `need` characters.  Returns the characters taken and the result of `k`. -/
def matchRep (cls : CharClass) (k : Option Char → Str → Option Found) :
    Nat → Option Char → Str → Option (Str × Found)
  | need, prev, [] => if need = 0 then (k prev []).map fun m => ([], m) else none
  | need, prev, c :: s =>
    if cls.mem c then
      match matchRep cls k (need - 1) (some c) s with
      | some (w, m) => some (c :: w, m)
      | none => if need = 0 then (k prev (c :: s)).map fun m => ([], m) else none
    else if need = 0 then (k prev (c :: s)).map fun m => ([], m) else none

/-- Match attempt of a pattern at one position: `prev` is the character before
the position (`none` at the start of the text), the list is the input from the
position on. -/
def matchHere : Regexp → Option Char → Str → Option Found
  | [], prev, s => some ⟨[], prev, s⟩
  | .lit c :: ns, _, s =>
    match s with
    | [] => none
    | d :: s' => if d = c then matchHere ns (some d) s' else none
  | .bol :: ns, prev, s =>
    if prev = none ∨ prev = some '\n' then matchHere ns prev s else none
  | .eol :: ns, prev, s =>
    if s.head? = none ∨ s.head? = some '\n' then matchHere ns prev s else none
  | .bot :: ns, prev, s => if prev = none then matchHere ns prev s else none
  | .eot :: ns, prev, s => if s = [] then matchHere ns prev s else none
  | .rep cls min cap :: ns, prev, s =>
    match matchRep cls (matchHere ns) min prev s with
    | some (w, m) => some (if cap then { m with cap := w } else m)
    | none => none

/-- A piece of a replacement template: literal text or `$1`. -/
inductive Piece where
  | text : Str → Piece
  | group1 : Piece
  deriving DecidableEq, Repr

/-- Expansion of a replacement template with the text of group 1. -/
def expand (tmpl : List Piece) (cap : Str) : Str :=
  tmpl.flatMap fun p => match p with
    | .text t => t
    | .group1 => cap

/-- The loop of `ReplaceAll`: at each position the pattern is tried; a match is
replaced by the expanded template and the scan resumes after it, otherwise one
character is copied.  A match of the empty string is replaced unless it comes
right after another match, and one character is copied after it. -/
def replaceAllAux (re : Regexp) (tmpl : List Piece) : Nat → Option Char → Bool → Str → Str
  | 0, _, _, s => s
  | fuel + 1, prev, afterMatch, s =>
    match matchHere re prev s with
    | some m =>
      if m.rest.length < s.length then
        expand tmpl m.cap ++ replaceAllAux re tmpl fuel m.last true m.rest
      else
        (if afterMatch then [] else expand tmpl m.cap) ++
          (match s with
           | [] => []
           | c :: s' => c :: replaceAllAux re tmpl fuel (some c) false s')
    | none =>
      match s with
      | [] => []
      | c :: s' => c :: replaceAllAux re tmpl fuel (some c) false s'

/-- The method `(*Regexp).ReplaceAll(src, repl)`.  Each step of the loop moves at
least one character forward, so the fuel `src.length + 1` is never used up. -/
def ReplaceAll (re : Regexp) (src : Str) (repl : List Piece) : Str :=
  replaceAllAux re repl (src.length + 1) none false src

/-- Search for a match starting at this or a later position. -/
def searchFrom (re : Regexp) : Option Char → Str → Bool
  | prev, [] => (matchHere re prev []).isSome
  | prev, c :: s => (matchHere re prev (c :: s)).isSome || searchFrom re (some c) s

/-- The method `(*Regexp).MatchString(s)`: does the text contain a match. -/
def MatchString (re : Regexp) (s : Str) : Bool :=
  searchFrom re none s

/-! ## `wiki.go` -/

/-- The struct `Page`. -/
structure Page where
  Title : Str
  Body : Str
  deriving DecidableEq, Repr

/-- The literal nodes of a string. -/
def lits (s : String) : Regexp :=
  s.toList.map Node.lit

/-- The capture group `(.+)`. -/
def dotPlus : Node :=
  .rep .dot 1 true

/-- The template `<tag>$1</tag>` given its two literal parts. -/
def wrap (opening closing : String) : List Piece :=
  [.text opening.toList, .group1, .text closing.toList]

/-- Pattern `(?m)^# (.+) #`. -/
def h1regexp : Regexp := .bol :: lits "# " ++ dotPlus :: lits " #"
/-- Pattern `(?m)^## (.+) ##`. -/
def h2regexp : Regexp := .bol :: lits "## " ++ dotPlus :: lits " ##"
/-- Pattern `(?m)^### (.+) ###`. -/
def h3regexp : Regexp := .bol :: lits "### " ++ dotPlus :: lits " ###"
/-- Pattern `(?m)^#### (.+) ####`. -/
def h4regexp : Regexp := .bol :: lits "#### " ++ dotPlus :: lits " ####"
/-- Pattern `(?m)^##### (.+) #####`. -/
def h5regexp : Regexp := .bol :: lits "##### " ++ dotPlus :: lits " #####"
/-- Pattern `(?m)^###### (.+) ######`. -/
def h6regexp : Regexp := .bol :: lits "###### " ++ dotPlus :: lits " ######"
/-- Pattern `(?m) \*(.+)\*`. -/
def italicregexp : Regexp := lits " *" ++ dotPlus :: lits "*"
/-- Pattern `(?m)\*\*(.+)\*\*`. -/
def boldregexp : Regexp := lits "**" ++ dotPlus :: lits "**"
/-- Pattern `(?m)~(.+)~`. -/
def striketroughregexp : Regexp := lits "~" ++ dotPlus :: lits "~"
/-- Pattern `(?m)^[*-_]{3,}$`: the bracket expression is the range from `*`
to `_`. -/
def hrregexp : Regexp := [.bol, .rep (.ranges [('*', '_')]) 3 false, .eol]

/-- The function `renderMarkdown`: ten substitutions on the body, in order. -/
def renderMarkdown (p : Page) : Page :=
  let p := { p with Body := ReplaceAll h1regexp p.Body (wrap "<h1>" "</h1>") }
  let p := { p with Body := ReplaceAll h2regexp p.Body (wrap "<h2>" "</h2>") }
  let p := { p with Body := ReplaceAll h3regexp p.Body (wrap "<h3>" "</h3>") }
  let p := { p with Body := ReplaceAll h4regexp p.Body (wrap "<h4>" "</h4>") }
  let p := { p with Body := ReplaceAll h5regexp p.Body (wrap "<h5>" "</h5>") }
  let p := { p with Body := ReplaceAll h6regexp p.Body (wrap "<h5>" "</h5>") }
  let p := { p with Body := ReplaceAll italicregexp p.Body (wrap "<i>" "</i>") }
  let p := { p with Body := ReplaceAll boldregexp p.Body (wrap "<b>" "</b>") }
  let p := { p with Body := ReplaceAll striketroughregexp p.Body (wrap "<s>" "</s>") }
  let p := { p with Body := ReplaceAll hrregexp p.Body [.text "<hr>".toList] }
  p

/-- The body `renderMarkdown` leaves in a page whose body was `b`. -/
def render (b : Str) : Str :=
  (renderMarkdown ⟨[], b⟩).Body

/-! ## The handlers

The file system and the outcome of template execution are the environment of
the program.  `World` holds the files (a partial map from file name to
contents) and says which writes and which template executions fail and with
what error text. -/

/-- The environment of the handlers. -/
structure World where
  /-- the contents of the files that can be read -/
  files : Str → Option Str
  /-- the error `ioutil.WriteFile` returns for a file name, if it fails -/
  writeFault : Str → Option Str
  /-- the error `Execute` returns for a template and a page, if it fails -/
  executeFault : Str → Page → Option Str

/-- One thing a handler did to its `http.ResponseWriter`. -/
inductive Reply where
  /-- the call `http.NotFound(w, r)`: status 404 -/
  | notFound : Reply
  /-- the call `http.Redirect(w, r, url, code)` -/
  | redirect : Str → Nat → Reply
  /-- the call `http.Error(w, msg, code)` -/
  | error : Str → Nat → Reply
  /-- the call `templates[tmpl].Execute(w, p)` -/
  | execute : Str → Page → Reply
  deriving DecidableEq, Repr

/-- The `http.ResponseWriter`: what has been written to it so far. -/
abbrev ResponseWriter := List Reply

/-- The part of `*http.Request` the program reads. -/
structure Request where
  /-- the field `r.URL.Path` -/
  Path : Str
  /-- the method `r.FormValue(key)` -/
  FormValue : Str → Str

/-- The constant `http.StatusFound`. -/
def StatusFound : Nat := 302

/-- The constant `http.StatusInternalServerError`. -/
def StatusInternalServerError : Nat := 500

/-- The function `ioutil.WriteFile`: the error, if any, and the files after. -/
def WriteFile (σ : World) (filename data : Str) : Option Str × World :=
  match σ.writeFault filename with
  | some err => (some err, σ)
  | none => (none, { σ with files := fun f => if f = filename then some data else σ.files f })

/-- The function `ioutil.ReadFile`: the contents, or `none` for an error. -/
def ReadFile (σ : World) (filename : Str) : Option Str :=
  σ.files filename

/-- The method `(p *Page) save()`. -/
def Page.save (p : Page) (σ : World) : Option Str × World :=
  let filename := "data/".toList ++ p.Title ++ ".txt".toList
  WriteFile σ filename p.Body

/-- The function `loadPage`: the page, or `none` for an error. -/
def loadPage (σ : World) (title : Str) : Option Page :=
  let filename := "data/".toList ++ title ++ ".txt".toList
  match ReadFile σ filename with
  | none => none
  | some body => some { Title := title, Body := body }

/-- The function `renderTemplate`. -/
def renderTemplate (σ : World) (w : ResponseWriter) (tmpl : Str) (p : Page) : ResponseWriter :=
  let w := w ++ [.execute tmpl p]
  match σ.executeFault tmpl p with
  | some err => w ++ [.error err StatusInternalServerError]
  | none => w

/-- The type of the inner handlers: `func(http.ResponseWriter, *http.Request, string)`,
with the environment passed through. -/
abbrev TitleHandler := ResponseWriter → Request → Str → World → World × ResponseWriter

/-- The function `viewHandler`. -/
def viewHandler : TitleHandler := fun w _r title σ =>
  match loadPage σ title with
  | none => (σ, w ++ [.redirect ("/edit/".toList ++ title) StatusFound])
  | some p =>
    let p := renderMarkdown p
    (σ, renderTemplate σ w "view".toList p)

/-- The function `editHandler`. -/
def editHandler : TitleHandler := fun w _r title σ =>
  let p := match loadPage σ title with
    | none => { Title := title, Body := [] }
    | some p => p
  (σ, renderTemplate σ w "edit".toList p)

/-- The function `saveHandler`. -/
def saveHandler : TitleHandler := fun w r title σ =>
  let body := r.FormValue "body".toList
  let p : Page := { Title := title, Body := body }
  match p.save σ with
  | (some err, σ') => (σ', w ++ [.error err StatusInternalServerError])
  | (none, σ') => (σ', w ++ [.redirect ("/view/".toList ++ title) StatusFound])

/-- The function `redirHandler`. -/
def redirHandler (w : ResponseWriter) (_r : Request) : ResponseWriter :=
  w ++ [.redirect "/view/FrontPage".toList StatusFound]

/-- The constant `lenPath = len("/view/")`. -/
def lenPath : Nat := "/view/".length

/-- Pattern `^[a-zA-Z0-9]+$`, without the flag `(?m)`. -/
def titleValidator : Regexp :=
  [.bot, .rep (.ranges [('a', 'z'), ('A', 'Z'), ('0', '9')]) 1 false, .eot]

/-- The function `makeHandler`.  The slice `r.URL.Path[lenPath:]` panics on a
shorter path: the result is then `none`. -/
def makeHandler (fn : TitleHandler) : ResponseWriter → Request → World →
    Option (World × ResponseWriter) := fun w r σ =>
  if r.Path.length < lenPath then none
  else
    let title := r.Path.drop lenPath
    if !MatchString titleValidator title then
      some (σ, w ++ [.notFound])
    else
      some (fn w r title σ)

/-- An ASCII letter or digit. -/
def isAsciiAlnum (c : Char) : Bool :=
  (decide ('a'.toNat ≤ c.toNat) && decide (c.toNat ≤ 'z'.toNat)) ||
  (decide ('A'.toNat ≤ c.toNat) && decide (c.toNat ≤ 'Z'.toNat)) ||
  (decide ('0'.toNat ≤ c.toNat) && decide (c.toNat ≤ '9'.toNat))

/-- The title grammar in the words of the specification, `[A-Za-z0-9]+`: the
title is not empty and each of its characters is an ASCII letter or digit. -/
def validTitle (t : Str) : Prop :=
  t ≠ [] ∧ ∀ c ∈ t, isAsciiAlnum c = true

instance (t : Str) : Decidable (validTitle t) := by
  unfold validTitle; infer_instance

/-- The body made of the given lines: they are joined by newlines. -/
def joinLines : List Str → Str
  | [] => []
  | [l] => l
  | l :: ls => l ++ '\n' :: joinLines ls

/-! ## Auxiliary definitions for the statements and proofs -/

/-- The character before the position reached after reading `w`. -/
def lastOf : Option Char → Str → Option Char
  | p, [] => p
  | _, c :: w => lastOf (some c) w

/-- A pattern that cannot match the empty string: it has a literal or a
repetition that needs at least one character. -/
def consumes (re : Regexp) : Bool :=
  re.any fun n => match n with
    | .lit _ => true
    | .rep _ min _ => decide (0 < min)
    | _ => false

/-- A pattern that works inside one line: no node can read a newline and the
anchors are the line anchors. -/
def lineLocal (re : Regexp) : Bool :=
  re.all fun n => match n with
    | .lit c => c != '\n'
    | .bol => true
    | .eol => true
    | .bot => false
    | .eot => false
    | .rep cls _ _ => !cls.mem '\n'

/-- The scan of `ReplaceAll` from a position with `prev` before it. -/
def scan (re : Regexp) (tmpl : List Piece) (prev : Option Char) (s : Str) : Str :=
  replaceAllAux re tmpl (s.length + 1) prev false s

/-- The same outcome with more input left unread. -/
def Found.extend (m : Found) (u : Str) : Found :=
  { m with rest := m.rest ++ u }

/-- The group and the unread input of an outcome. -/
def Found.core (m : Found) : Str × Str :=
  (m.cap, m.rest)

/-- A template whose literal text has no newline. -/
def tmplNlFree (tmpl : List Piece) : Bool :=
  tmpl.all fun p => match p with
    | .text t => decide ('\n' ∉ t)
    | .group1 => true

/-- The continuation `k` fails at this position and at every later one. -/
def FailsFrom (k : Option Char → Str → Option Found) : Str → Prop
  | [] => ∀ q, k q [] = none
  | c :: s => (∀ q, k q (c :: s) = none) ∧ FailsFrom k s

/-- The heading pattern of a level, 1 to 6. -/
def headingRegexp : Nat → Regexp
  | 1 => h1regexp
  | 2 => h2regexp
  | 3 => h3regexp
  | 4 => h4regexp
  | 5 => h5regexp
  | _ => h6regexp

/-- The replacement template used with the heading pattern of a level: the
sixth level shares the template of the fifth. -/
def headingTemplate : Nat → List Piece
  | 1 => wrap "<h1>" "</h1>"
  | 2 => wrap "<h2>" "</h2>"
  | 3 => wrap "<h3>" "</h3>"
  | 4 => wrap "<h4>" "</h4>"
  | _ => wrap "<h5>" "</h5>"

/-- A run of `n` hashes. -/
def hashes (n : Nat) : Str :=
  List.replicate n '#'

/-- The level of the tag the heading rule of level `L` writes. -/
def tagLevel (L : Nat) : Nat :=
  if L = 6 then 5 else L

/-- The opening tag `<hN>`. -/
def openTag (n : Nat) : Str :=
  ['<', 'h', Nat.digitChar n, '>']

/-- The closing tag `</hN>`. -/
def closeTag (n : Nat) : Str :=
  ['<', '/', 'h', Nat.digitChar n, '>']

/-- A world without files in which no write and no template execution fails. -/
def emptyWorld : World :=
  { files := fun _ => none, writeFault := fun _ => none, executeFault := fun _ _ => none }

/-- A request for `/view/has-dash` without form values. -/
def dashRequest : Request :=
  { Path := "/view/has-dash".toList, FormValue := fun _ => [] }

/-- A world in which the page `FooBar` is stored with the body `# Hi #`. -/
def fooBarWorld : World :=
  (saveHandler [] { Path := "/save/FooBar".toList, FormValue := fun _ => "# Hi #".toList }
    "FooBar".toList emptyWorld).1

/-! ## Facts about the matcher -/

theorem lastOf_append (p : Option Char) (w v : Str) :
    lastOf p (w ++ v) = lastOf (lastOf p w) v := by
  induction w generalizing p with
  | nil => rfl
  | cons c w ih => simpa [lastOf] using ih (some c)

theorem lastOf_some_of_ne_nil (p : Option Char) (w : Str) (hw : w ≠ []) :
    ∃ c, c ∈ w ∧ lastOf p w = some c := by
  induction w generalizing p with
  | nil => exact absurd rfl hw
  | cons c w ih =>
    by_cases h : w = []
    · subst h; exact ⟨c, by simp, rfl⟩
    · obtain ⟨d, hd, he⟩ := ih (some c) h
      exact ⟨d, List.mem_cons_of_mem _ hd, by simpa [lastOf] using he⟩

/-- What a successful repetition has done: it took `w`, all of the class and at
least `need` long, and the continuation succeeded on what follows `w`. -/
theorem matchRep_some {cls : CharClass} {k : Option Char → Str → Option Found} :
    ∀ (s : Str) (need : Nat) (prev : Option Char) (w : Str) (m : Found),
      matchRep cls k need prev s = some (w, m) →
      (∀ c ∈ w, cls.mem c = true) ∧ need ≤ w.length ∧
        ∃ t, s = w ++ t ∧ k (lastOf prev w) t = some m := by
  intro s
  induction s with
  | nil =>
    intro need prev w m h
    unfold matchRep at h
    split at h
    · rename_i h0
      cases hk : k prev [] with
      | none => simp [hk] at h
      | some m' =>
        simp [hk] at h
        obtain ⟨rfl, rfl⟩ := h
        exact ⟨by simp, by simp [h0], [], rfl, by simpa [lastOf] using hk⟩
    · cases h
  | cons c s ih =>
    intro need prev w m h
    unfold matchRep at h
    have stop : (if need = 0 then (k prev (c :: s)).map fun m => (([] : Str), m) else none)
        = some (w, m) →
        (∀ c ∈ w, cls.mem c = true) ∧ need ≤ w.length ∧
          ∃ t, c :: s = w ++ t ∧ k (lastOf prev w) t = some m := by
      intro h
      split at h
      · rename_i h0
        cases hk : k prev (c :: s) with
        | none => simp [hk] at h
        | some m' =>
          simp [hk] at h
          obtain ⟨rfl, rfl⟩ := h
          exact ⟨by simp, by simp [h0], c :: s, rfl, by simpa [lastOf] using hk⟩
      · cases h
    by_cases hc : cls.mem c = true
    · simp only [hc, if_true] at h
      cases hr : matchRep cls k (need - 1) (some c) s with
      | none =>
        rw [hr] at h
        exact stop h
      | some r =>
        obtain ⟨w', m'⟩ := r
        rw [hr] at h
        simp at h
        obtain ⟨rfl, rfl⟩ := h
        obtain ⟨hall, hlen, t, ht, hk⟩ := ih _ _ _ _ hr
        refine ⟨?_, ?_, t, ?_, ?_⟩
        · intro d hd
          rcases List.mem_cons.1 hd with rfl | hd
          · exact hc
          · exact hall d hd
        · simp; omega
        · simp [ht]
        · simpa [lastOf] using hk
    · simp only [hc] at h
      exact stop (by simpa using h)

/-- Greedy extension: when `w` is in the class and the repetition succeeds on
what follows `w`, it succeeds on the whole with `w` in front. -/
theorem matchRep_peel {cls : CharClass} {k : Option Char → Str → Option Found} :
    ∀ (w : Str) (need : Nat) (prev : Option Char) (t w' : Str) (m : Found),
      (∀ c ∈ w, cls.mem c = true) →
      matchRep cls k (need - w.length) (lastOf prev w) t = some (w', m) →
      matchRep cls k need prev (w ++ t) = some (w ++ w', m) := by
  intro w
  induction w with
  | nil =>
    intro need prev t w' m _ h
    simpa [lastOf] using h
  | cons c w ih =>
    intro need prev t w' m hall h
    have hc : cls.mem c = true := hall c (by simp)
    have h' : matchRep cls k (need - 1 - w.length) (lastOf (some c) w) t = some (w', m) := by
      have e : need - 1 - w.length = need - (c :: w).length := by simp; omega
      rw [e]; simpa [lastOf] using h
    have := ih (need - 1) (some c) t w' m (fun d hd => hall d (List.mem_cons_of_mem _ hd)) h'
    show matchRep cls k need prev (c :: (w ++ t)) = _
    unfold matchRep
    simp [hc, this]

/-- What a successful match attempt has read. -/
theorem matchHere_spec :
    ∀ (ns : Regexp) (prev : Option Char) (s : Str) (m : Found),
      matchHere ns prev s = some m →
      ∃ w, s = w ++ m.rest ∧ m.last = lastOf prev w ∧ (∀ c ∈ m.cap, c ∈ w) ∧
        (consumes ns = true → w ≠ []) ∧ (∀ c, Node.lit c ∈ ns → c ∈ w) ∧
        (lineLocal ns = true → '\n' ∉ w) := by
  intro ns
  induction ns with
  | nil =>
    intro prev s m h
    simp [matchHere] at h
    subst h
    exact ⟨[], by simp [lastOf, consumes]⟩
  | cons n ns ih =>
    intro prev s m h
    cases n with
    | lit c =>
      cases s with
      | nil => simp [matchHere] at h
      | cons d s' =>
        simp only [matchHere] at h
        split at h
        · rename_i hd
          subst hd
          obtain ⟨w, hs, hl, hc, _, hlit, hnl⟩ := ih _ _ _ h
          refine ⟨d :: w, by simp [← hs], by simpa [lastOf] using hl, ?_, by simp, ?_, ?_⟩
          · intro c hcm; exact List.mem_cons_of_mem _ (hc c hcm)
          · intro c hcm
            simp at hcm
            rcases hcm with rfl | hcm
            · simp
            · exact List.mem_cons_of_mem _ (hlit c hcm)
          · intro hll
            simp [lineLocal] at hll
            have hll' : lineLocal ns = true := by simpa [lineLocal] using hll.2
            simp only [List.mem_cons, not_or]
            exact ⟨fun e => hll.1 e.symm, hnl hll'⟩
        · cases h
    | bol =>
      simp only [matchHere] at h
      split at h
      · obtain ⟨w, hs, hl, hc, hcons, hlit, hnl⟩ := ih _ _ _ h
        refine ⟨w, hs, hl, hc, ?_, ?_, ?_⟩
        · intro hh; exact hcons (by simpa [consumes] using hh)
        · intro c hcm; exact hlit c (by simpa using hcm)
        · intro hh; exact hnl (by simpa [lineLocal] using hh)
      · cases h
    | eol =>
      simp only [matchHere] at h
      split at h
      · obtain ⟨w, hs, hl, hc, hcons, hlit, hnl⟩ := ih _ _ _ h
        refine ⟨w, hs, hl, hc, ?_, ?_, ?_⟩
        · intro hh; exact hcons (by simpa [consumes] using hh)
        · intro c hcm; exact hlit c (by simpa using hcm)
        · intro hh; exact hnl (by simpa [lineLocal] using hh)
      · cases h
    | bot =>
      simp only [matchHere] at h
      split at h
      · obtain ⟨w, hs, hl, hc, hcons, hlit, hnl⟩ := ih _ _ _ h
        refine ⟨w, hs, hl, hc, ?_, ?_, ?_⟩
        · intro hh; exact hcons (by simpa [consumes] using hh)
        · intro c hcm; exact hlit c (by simpa using hcm)
        · intro hh; simp [lineLocal] at hh
      · cases h
    | eot =>
      simp only [matchHere] at h
      split at h
      · obtain ⟨w, hs, hl, hc, hcons, hlit, hnl⟩ := ih _ _ _ h
        refine ⟨w, hs, hl, hc, ?_, ?_, ?_⟩
        · intro hh; exact hcons (by simpa [consumes] using hh)
        · intro c hcm; exact hlit c (by simpa using hcm)
        · intro hh; simp [lineLocal] at hh
      · cases h
    | rep cls min cap =>
      simp only [matchHere] at h
      cases hr : matchRep cls (matchHere ns) min prev s with
      | none => simp [hr] at h
      | some r =>
        obtain ⟨w1, m'⟩ := r
        simp only [hr, Option.some.injEq] at h
        obtain ⟨hall, hlen, t, hst, hk⟩ := matchRep_some _ _ _ _ _ hr
        obtain ⟨w2, hs, hl, hc, hcons, hlit, hnl⟩ := ih _ _ _ hk
        have hrest : m.rest = m'.rest := by subst h; split <;> rfl
        have hlast : m.last = m'.last := by subst h; split <;> rfl
        refine ⟨w1 ++ w2, ?_, ?_, ?_, ?_, ?_, ?_⟩
        · rw [hst, hs, hrest]; simp
        · rw [hlast, hl, lastOf_append]
        · intro c hcm
          subst h
          split at hcm
          · exact List.mem_append_left _ hcm
          · exact List.mem_append_right _ (hc c hcm)
        · intro hh
          simp [consumes] at hh
          rcases hh with hh | hh
          · intro e
            have : w1 = [] := (List.append_eq_nil.1 e).1
            subst this
            simp at hlen
            omega
          · intro e
            exact hcons (by simpa [consumes] using hh) (List.append_eq_nil.1 e).2
        · intro c hcm
          exact List.mem_append_right _ (hlit c (by simpa using hcm))
        · intro hh
          simp [lineLocal] at hh
          intro hmem
          rcases List.mem_append.1 hmem with h1 | h2
          · have := hall _ h1; simp [hh.1] at this
          · exact hnl (by simpa [lineLocal] using hh.2) h2

/-- A match of a consuming pattern leaves strictly less input. -/
theorem matchHere_rest_lt {re : Regexp} (hc : consumes re = true) {prev : Option Char}
    {s : Str} {m : Found} (h : matchHere re prev s = some m) :
    m.rest.length < s.length := by
  obtain ⟨w, hs, _, _, hne, _, _⟩ := matchHere_spec _ _ _ _ h
  have := hne hc
  rw [hs]
  cases w with
  | nil => exact absurd rfl this
  | cons c w => simp; omega

/-- A pattern with a literal that the input lacks does not match. -/
theorem matchHere_none_of_lit {re : Regexp} {c : Char} (hc : Node.lit c ∈ re)
    (prev : Option Char) {s : Str} (hs : c ∉ s) : matchHere re prev s = none := by
  cases h : matchHere re prev s with
  | none => rfl
  | some m =>
    obtain ⟨w, hw, _, _, _, hlit, _⟩ := matchHere_spec _ _ _ _ h
    exact absurd (by rw [hw]; exact List.mem_append_left _ (hlit c hc)) hs

/-! ## Facts about `ReplaceAll` -/

theorem ReplaceAll_eq_scan (re : Regexp) (tmpl : List Piece) (s : Str) :
    ReplaceAll re s tmpl = scan re tmpl none s := rfl

/-- With a consuming pattern the loop never runs out of fuel and the flag for
empty matches plays no part. -/
theorem replaceAllAux_irrel {re : Regexp} (hc : consumes re = true) (tmpl : List Piece) :
    ∀ (n : Nat) (s : Str), s.length ≤ n → ∀ (f1 f2 : Nat) (p : Option Char) (a1 a2 : Bool),
      s.length < f1 → s.length < f2 →
      replaceAllAux re tmpl f1 p a1 s = replaceAllAux re tmpl f2 p a2 s := by
  intro n
  induction n with
  | zero =>
    intro s hs f1 f2 p a1 a2 h1 h2
    have hnil : s = [] := List.length_eq_zero.1 (Nat.le_zero.1 hs)
    subst hnil
    obtain ⟨g1, rfl⟩ : ∃ g, f1 = g + 1 := ⟨f1 - 1, by omega⟩
    obtain ⟨g2, rfl⟩ : ∃ g, f2 = g + 1 := ⟨f2 - 1, by omega⟩
    cases hm : matchHere re p [] with
    | none => simp [replaceAllAux, hm]
    | some m => exact absurd (matchHere_rest_lt hc hm) (by simp)
  | succ n ih =>
    intro s hs f1 f2 p a1 a2 h1 h2
    obtain ⟨g1, rfl⟩ : ∃ g, f1 = g + 1 := ⟨f1 - 1, by omega⟩
    obtain ⟨g2, rfl⟩ : ∃ g, f2 = g + 1 := ⟨f2 - 1, by omega⟩
    cases hm : matchHere re p s with
    | none =>
      cases s with
      | nil => simp [replaceAllAux, hm]
      | cons c s' =>
        simp only [replaceAllAux, hm]
        simp at hs h1 h2
        rw [ih s' (by omega) g1 g2 (some c) false false (by omega) (by omega)]
    | some m =>
      have hlt := matchHere_rest_lt hc hm
      simp only [replaceAllAux, hm, hlt, if_true]
      rw [ih m.rest (by omega) g1 g2 m.last true true (by omega) (by omega)]

theorem scan_nil {re : Regexp} (hc : consumes re = true) (tmpl : List Piece)
    (prev : Option Char) : scan re tmpl prev [] = [] := by
  cases hm : matchHere re prev [] with
  | none => simp [scan, replaceAllAux, hm]
  | some m => exact absurd (matchHere_rest_lt hc hm) (by simp)

theorem scan_cons_of_none {re : Regexp} (tmpl : List Piece) {prev : Option Char}
    {c : Char} {s : Str} (hm : matchHere re prev (c :: s) = none) :
    scan re tmpl prev (c :: s) = c :: scan re tmpl (some c) s := by
  simp [scan, replaceAllAux, hm]

theorem scan_of_some {re : Regexp} (hc : consumes re = true) (tmpl : List Piece)
    {prev : Option Char} {s : Str} {m : Found} (hm : matchHere re prev s = some m) :
    scan re tmpl prev s = expand tmpl m.cap ++ scan re tmpl m.last m.rest := by
  have hlt := matchHere_rest_lt hc hm
  have e : scan re tmpl prev s =
      expand tmpl m.cap ++ replaceAllAux re tmpl s.length m.last true m.rest := by
    show replaceAllAux re tmpl (s.length + 1) prev false s = _
    conv_lhs => unfold replaceAllAux
    simp only [hm, hlt, if_true]
  rw [e]
  unfold scan
  rw [replaceAllAux_irrel hc tmpl m.rest.length m.rest (le_refl _) s.length
    (m.rest.length + 1) m.last true false hlt (by omega)]

/-- The scan copies a stretch in which no position starts a match. -/
theorem scan_skip {re : Regexp} (tmpl : List Piece) (t : Str) :
    ∀ (pre : Str) (prev : Option Char),
      (∀ p1 c p2, pre = p1 ++ c :: p2 → matchHere re (lastOf prev p1) (c :: p2 ++ t) = none) →
      scan re tmpl prev (pre ++ t) = pre ++ scan re tmpl (lastOf prev pre) t := by
  intro pre
  induction pre with
  | nil => intro prev _; rfl
  | cons c pre ih =>
    intro prev h
    have h0 := h [] c pre rfl
    simp only [lastOf] at h0
    show scan re tmpl prev (c :: (pre ++ t)) = _
    rw [scan_cons_of_none tmpl (by simpa using h0)]
    rw [ih (some c) (fun p1 d p2 e => by
      have := h (c :: p1) d p2 (by simp [e])
      simpa [lastOf] using this)]
    simp [lastOf]

/-- The scan leaves a text unchanged when no position starts a match. -/
theorem scan_unchanged {re : Regexp} (hc : consumes re = true) (tmpl : List Piece)
    (s : Str) (prev : Option Char)
    (h : ∀ p1 c p2, s = p1 ++ c :: p2 → matchHere re (lastOf prev p1) (c :: p2) = none) :
    scan re tmpl prev s = s := by
  have := scan_skip tmpl [] s prev (by simpa using h)
  simpa [scan_nil hc] using this

/-- A pattern with a literal that the text lacks changes nothing. -/
theorem scan_of_lit_not_mem {re : Regexp} (hc : consumes re = true) (tmpl : List Piece)
    {c : Char} (hl : Node.lit c ∈ re) (s : Str) (prev : Option Char) (hs : c ∉ s) :
    scan re tmpl prev s = s := by
  apply scan_unchanged hc
  intro p1 d p2 e
  apply matchHere_none_of_lit hl
  intro hmem
  exact hs (by rw [e]; exact List.mem_append_right _ hmem)

theorem lastOf_ne_nl (c : Char) (hc : c ≠ '\n') (w : Str) (hw : '\n' ∉ w) :
    ∃ d, d ≠ '\n' ∧ lastOf (some c) w = some d := by
  induction w generalizing c with
  | nil => exact ⟨c, hc, rfl⟩
  | cons e w ih =>
    simp only [List.mem_cons, not_or] at hw
    exact ih e (fun h => hw.1 h.symm) hw.2

theorem matchHere_bol_none (ns : Regexp) {d : Char} (hd : d ≠ '\n') (s : Str) :
    matchHere (.bol :: ns) (some d) s = none := by
  simp [matchHere, hd]

/-- Inside a line a pattern anchored with `(?m)^` changes nothing. -/
theorem scan_bol_inside {ns : Regexp} (hc : consumes (.bol :: ns) = true) (tmpl : List Piece)
    (c : Char) (hcn : c ≠ '\n') (s : Str) (hs : '\n' ∉ s) :
    scan (.bol :: ns) tmpl (some c) s = s := by
  apply scan_unchanged hc
  intro p1 d p2 e
  have hp1 : '\n' ∉ p1 := fun h => hs (by rw [e]; exact List.mem_append_left _ h)
  obtain ⟨x, hx, hl⟩ := lastOf_ne_nl c hcn p1 hp1
  rw [hl]
  exact matchHere_bol_none ns hx _

/-- On one line a pattern anchored with `(?m)^` that fails at the start of the
line changes nothing. -/
theorem scan_bol_none {ns : Regexp} (hc : consumes (.bol :: ns) = true) (tmpl : List Piece)
    (s : Str) (hs : '\n' ∉ s) (hm : matchHere (.bol :: ns) none s = none) :
    scan (.bol :: ns) tmpl none s = s := by
  cases s with
  | nil => exact scan_nil hc tmpl none
  | cons c s =>
    simp only [List.mem_cons, not_or] at hs
    rw [scan_cons_of_none tmpl hm, scan_bol_inside hc tmpl c (fun h => hs.1 h.symm) s hs.2]

/-- On one line a pattern anchored with `(?m)^` that matches at the start of
the line replaces that match and keeps what follows it. -/
theorem scan_bol_some {ns : Regexp} (hc : consumes (.bol :: ns) = true) (tmpl : List Piece)
    (s : Str) (hs : '\n' ∉ s) {m : Found} (hm : matchHere (.bol :: ns) none s = some m) :
    scan (.bol :: ns) tmpl none s = expand tmpl m.cap ++ m.rest := by
  rw [scan_of_some hc tmpl hm]
  obtain ⟨w, hw, hl, _, hne, _, _⟩ := matchHere_spec _ _ _ _ hm
  have hwne := hne hc
  obtain ⟨d, hd, hld⟩ := lastOf_some_of_ne_nil none w hwne
  have hdn : d ≠ '\n' := by
    intro e
    subst e
    exact hs (by rw [hw]; exact List.mem_append_left _ hd)
  rw [hl, hld, scan_bol_inside hc tmpl d hdn m.rest
    (fun h => hs (by rw [hw]; exact List.mem_append_right _ h))]

/-! ## Line by line -/

theorem matchRep_line {cls : CharClass} {k : Option Char → Str → Option Found} (u : Str)
    (hcls : cls.mem '\n' = false)
    (hk : ∀ p t, '\n' ∉ t → k p (t ++ '\n' :: u) = (k p t).map fun m => m.extend ('\n' :: u)) :
    ∀ (t : Str) (need : Nat) (prev : Option Char), '\n' ∉ t →
      matchRep cls k need prev (t ++ '\n' :: u) =
        (matchRep cls k need prev t).map fun r => (r.1, r.2.extend ('\n' :: u)) := by
  intro t
  induction t with
  | nil =>
    intro need prev _
    have := hk prev [] (by simp)
    simp only [List.nil_append] at this
    show matchRep cls k need prev ('\n' :: u) = _
    unfold matchRep
    by_cases h0 : need = 0 <;>
      simp [hcls, this, h0, Option.map_map, Function.comp_def]
  | cons c t ih =>
    intro need prev hnl
    simp only [List.mem_cons, not_or] at hnl
    have hk0 := hk prev (c :: t) (by simp [hnl.1, hnl.2])
    simp only [List.cons_append] at hk0
    show matchRep cls k need prev (c :: (t ++ '\n' :: u)) = _
    unfold matchRep
    rw [ih (need - 1) (some c) hnl.2, hk0]
    cases hc : cls.mem c with
    | true =>
      cases hr : matchRep cls k (need - 1) (some c) t with
      | none =>
        by_cases h0 : need = 0 <;> simp [h0, Option.map_map, Function.comp_def]
      | some r => simp
    | false =>
      by_cases h0 : need = 0 <;> simp [h0, Option.map_map, Function.comp_def]

/-- A line-local pattern reads nothing beyond the end of the line. -/
theorem matchHere_line (u : Str) :
    ∀ (ns : Regexp), lineLocal ns = true → ∀ (prev : Option Char) (t : Str), '\n' ∉ t →
      matchHere ns prev (t ++ '\n' :: u) =
        (matchHere ns prev t).map fun m => m.extend ('\n' :: u) := by
  intro ns
  induction ns with
  | nil => intro _ prev t _; simp [matchHere, Found.extend]
  | cons n ns ih =>
    intro hll prev t hnl
    have hll' : lineLocal ns = true := by
      simp [lineLocal] at hll; simpa [lineLocal] using hll.2
    cases n with
    | lit c =>
      have hc : c ≠ '\n' := by simp [lineLocal] at hll; exact hll.1
      cases t with
      | nil => simp [matchHere, Ne.symm hc]
      | cons d t =>
        simp only [List.mem_cons, not_or] at hnl
        simp only [List.cons_append, matchHere]
        split
        · exact ih hll' _ _ hnl.2
        · rfl
    | bol =>
      simp only [matchHere]
      split
      · exact ih hll' _ _ hnl
      · rfl
    | eol =>
      have hh : ((t ++ '\n' :: u).head? = none ∨ (t ++ '\n' :: u).head? = some '\n') ↔
          (t.head? = none ∨ t.head? = some '\n') := by
        cases t with
        | nil => simp
        | cons d t => simp
      simp only [matchHere, hh]
      split
      · exact ih hll' _ _ hnl
      · rfl
    | bot => simp [lineLocal] at hll
    | eot => simp [lineLocal] at hll
    | rep cls min cap =>
      have hcls : cls.mem '\n' = false := by simp [lineLocal] at hll; exact hll.1
      simp only [matchHere]
      rw [matchRep_line u hcls (fun p t' h => ih hll' p t' h) t min prev hnl]
      cases hr : matchRep cls (matchHere ns) min prev t with
      | none => simp
      | some r =>
        obtain ⟨w, m⟩ := r
        cases cap <;> simp [Found.extend]

theorem matchRep_prev {cls : CharClass} {k : Option Char → Str → Option Found}
    (hk : ∀ s, (k (some '\n') s).map Found.core = (k none s).map Found.core)
    (need : Nat) (s : Str) :
    (matchRep cls k need (some '\n') s).map (fun r => (r.1, r.2.core)) =
      (matchRep cls k need none s).map (fun r => (r.1, r.2.core)) := by
  cases s with
  | nil =>
    have := hk []
    by_cases h0 : need = 0 <;>
      simp [matchRep, h0, Option.map_map, Function.comp_def]
    cases h1 : k (some '\n') [] <;> cases h2 : k none [] <;> simp_all
  | cons c s =>
    have := hk (c :: s)
    unfold matchRep
    cases hc : cls.mem c with
    | true =>
      cases hr : matchRep cls k (need - 1) (some c) s with
      | none =>
        by_cases h0 : need = 0 <;> simp [h0, Option.map_map, Function.comp_def]
        cases h1 : k (some '\n') (c :: s) <;> cases h2 : k none (c :: s) <;> simp_all
      | some r => simp
    | false =>
      by_cases h0 : need = 0 <;> simp [h0, Option.map_map, Function.comp_def]
      cases h1 : k (some '\n') (c :: s) <;> cases h2 : k none (c :: s) <;> simp_all

/-- For a line-local pattern the position after a newline is like the start
of the text. -/
theorem matchHere_prev :
    ∀ (ns : Regexp), lineLocal ns = true → ∀ (s : Str),
      (matchHere ns (some '\n') s).map Found.core = (matchHere ns none s).map Found.core := by
  intro ns
  induction ns with
  | nil => intro _ s; simp [matchHere, Found.core]
  | cons n ns ih =>
    intro hll s
    have hll' : lineLocal ns = true := by
      simp [lineLocal] at hll; simpa [lineLocal] using hll.2
    cases n with
    | lit c => cases s <;> simp [matchHere]
    | bol => simpa [matchHere] using ih hll' s
    | eol =>
      simp only [matchHere]
      split
      · exact ih hll' s
      · rfl
    | bot => simp [lineLocal] at hll
    | eot => simp [lineLocal] at hll
    | rep cls min cap =>
      have : (matchRep cls (matchHere ns) min (some '\n') s).map (fun r => (r.1, r.2.core)) =
          (matchRep cls (matchHere ns) min none s).map (fun r => (r.1, r.2.core)) :=
        matchRep_prev (fun s => ih hll' s) min s
      simp only [matchHere]
      cases h1 : matchRep cls (matchHere ns) min (some '\n') s with
      | none =>
        cases h2 : matchRep cls (matchHere ns) min none s with
        | none => rfl
        | some r2 => simp [h1, h2] at this
      | some r1 =>
        cases h2 : matchRep cls (matchHere ns) min none s with
        | none => simp [h1, h2] at this
        | some r2 =>
          obtain ⟨w1, m1⟩ := r1
          obtain ⟨w2, m2⟩ := r2
          simp [h1, h2, Found.core] at this
          obtain ⟨rfl, hcap, hrest⟩ := this
          cases cap <;> simp [Found.core, hcap, hrest]

theorem lastOf_congr (p q : Option Char) (w : Str) (hw : w ≠ []) :
    lastOf p w = lastOf q w := by
  cases w with
  | nil => exact absurd rfl hw
  | cons c w => rfl

theorem scan_prev {re : Regexp} (hc : consumes re = true) (hll : lineLocal re = true)
    (tmpl : List Piece) (s : Str) :
    scan re tmpl (some '\n') s = scan re tmpl none s := by
  cases s with
  | nil => rw [scan_nil hc, scan_nil hc]
  | cons c s =>
    have := matchHere_prev re hll (c :: s)
    cases h1 : matchHere re (some '\n') (c :: s) with
    | none =>
      cases h2 : matchHere re none (c :: s) with
      | none => rw [scan_cons_of_none tmpl h1, scan_cons_of_none tmpl h2]
      | some m2 => simp [h1, h2] at this
    | some m1 =>
      cases h2 : matchHere re none (c :: s) with
      | none => simp [h1, h2] at this
      | some m2 =>
        simp [h1, h2, Found.core] at this
        obtain ⟨w1, hs1, hl1, _, hne1, _, _⟩ := matchHere_spec _ _ _ _ h1
        obtain ⟨w2, hs2, hl2, _, _, _, _⟩ := matchHere_spec _ _ _ _ h2
        have hw : w1 = w2 := by
          rw [this.2] at hs1
          exact List.append_cancel_right (hs1.symm.trans hs2)
        rw [scan_of_some hc tmpl h1, scan_of_some hc tmpl h2, this.1, this.2, hl1, hl2, hw,
          lastOf_congr (some '\n') none w2 (hw ▸ hne1 hc)]

/-- The scan of a line followed by a newline and more text is the scan of the
line, the newline, the scan of the rest. -/
theorem scan_line {re : Regexp} (hc : consumes re = true) (hll : lineLocal re = true)
    (tmpl : List Piece) (u : Str) :
    ∀ (n : Nat) (t : Str), t.length ≤ n → '\n' ∉ t → ∀ (prev : Option Char),
      scan re tmpl prev (t ++ '\n' :: u) = scan re tmpl prev t ++ '\n' :: scan re tmpl none u := by
  intro n
  induction n with
  | zero =>
    intro t ht _ prev
    have hnil : t = [] := List.length_eq_zero.1 (Nat.le_zero.1 ht)
    subst hnil
    have h0 : matchHere re prev [] = none := by
      cases hm : matchHere re prev [] with
      | none => rfl
      | some m => exact absurd (matchHere_rest_lt hc hm) (by simp)
    have h1 : matchHere re prev ('\n' :: u) = none := by
      have := matchHere_line u re hll prev [] (by simp)
      simpa [h0] using this
    rw [List.nil_append, scan_cons_of_none tmpl h1, scan_nil hc, scan_prev hc hll]
    rfl
  | succ n ih =>
    intro t ht hnl prev
    cases t with
    | nil => exact ih [] (by simp) hnl prev
    | cons c t =>
      have hline := matchHere_line u re hll prev (c :: t) hnl
      simp only [List.mem_cons, not_or] at hnl
      simp only [List.length_cons, Nat.add_le_add_iff_right] at ht
      cases hm : matchHere re prev (c :: t) with
      | none =>
        rw [hm] at hline
        simp only [Option.map_none', List.cons_append] at hline
        rw [List.cons_append, scan_cons_of_none tmpl hline, scan_cons_of_none tmpl hm,
          ih t ht hnl.2 (some c)]
        rfl
      | some m =>
        rw [hm] at hline
        simp only [Option.map_some'] at hline
        obtain ⟨w, hw, _, _, _, _, _⟩ := matchHere_spec _ _ _ _ hm
        have hlt := matchHere_rest_lt hc hm
        simp only [List.length_cons] at hlt
        have hrest : '\n' ∉ m.rest := by
          intro h
          have : '\n' ∈ c :: t := by rw [hw]; exact List.mem_append_right _ h
          simp only [List.mem_cons] at this
          rcases this with h1 | h1
          · exact hnl.1 h1
          · exact hnl.2 h1
        rw [scan_of_some hc tmpl hline, scan_of_some hc tmpl hm]
        show expand tmpl m.cap ++ scan re tmpl m.last (m.rest ++ '\n' :: u) = _
        rw [ih m.rest (by omega) hrest m.last]
        simp

theorem exists_first_newline (a : Str) (h : '\n' ∈ a) :
    ∃ t a', a = t ++ '\n' :: a' ∧ '\n' ∉ t := by
  induction a with
  | nil => simp at h
  | cons c a ih =>
    by_cases hc : c = '\n'
    · subst hc; exact ⟨[], a, rfl, by simp⟩
    · have : '\n' ∈ a := by
        rcases List.mem_cons.1 h with h | h
        · exact absurd h.symm hc
        · exact h
      obtain ⟨t, a', e, hn⟩ := ih this
      refine ⟨c :: t, a', by simp [e], ?_⟩
      simp only [List.mem_cons, not_or]
      exact ⟨fun e => hc e.symm, hn⟩

/-- The method `ReplaceAll` with a consuming line-local pattern works line by line. -/
theorem ReplaceAll_newline {re : Regexp} (hc : consumes re = true) (hll : lineLocal re = true)
    (tmpl : List Piece) :
    ∀ (n : Nat) (a : Str), a.length ≤ n → ∀ (b : Str),
      ReplaceAll re (a ++ '\n' :: b) tmpl = ReplaceAll re a tmpl ++ '\n' :: ReplaceAll re b tmpl := by
  intro n
  induction n with
  | zero =>
    intro a ha b
    have hnil : a = [] := List.length_eq_zero.1 (Nat.le_zero.1 ha)
    subst hnil
    simp only [ReplaceAll_eq_scan]
    exact scan_line hc hll tmpl b 0 [] (by simp) (by simp) none
  | succ n ih =>
    intro a ha b
    simp only [ReplaceAll_eq_scan]
    by_cases hnl : '\n' ∈ a
    · obtain ⟨t, a', e, hn⟩ := exists_first_newline a hnl
      subst e
      have hlen : a'.length ≤ n := by simp at ha; omega
      have h1 := ih a' hlen b
      simp only [ReplaceAll_eq_scan] at h1
      rw [List.append_assoc, List.cons_append,
        scan_line hc hll tmpl _ t.length t (le_refl _) hn none, h1,
        scan_line hc hll tmpl _ t.length t (le_refl _) hn none]
      simp
    · exact scan_line hc hll tmpl b a.length a (le_refl _) hnl none

theorem expand_nl_free {tmpl : List Piece} (ht : tmplNlFree tmpl = true) {cap : Str}
    (hc : '\n' ∉ cap) : '\n' ∉ expand tmpl cap := by
  intro h
  simp only [expand, List.mem_flatMap] at h
  obtain ⟨p, hp, hmem⟩ := h
  simp only [tmplNlFree, List.all_eq_true] at ht
  have := ht p hp
  cases p with
  | text t => simp at this; exact this hmem
  | group1 => exact hc hmem

/-- A consuming line-local pattern with a newline-free template puts no
newline into a line. -/
theorem scan_nl_free {re : Regexp} (hc : consumes re = true)
    {tmpl : List Piece} (ht : tmplNlFree tmpl = true) :
    ∀ (n : Nat) (s : Str), s.length ≤ n → '\n' ∉ s → ∀ (prev : Option Char),
      '\n' ∉ scan re tmpl prev s := by
  intro n
  induction n with
  | zero =>
    intro s hs _ prev
    have hnil : s = [] := List.length_eq_zero.1 (Nat.le_zero.1 hs)
    subst hnil
    simp [scan_nil hc]
  | succ n ih =>
    intro s hs hnl prev
    cases hm : matchHere re prev s with
    | none =>
      cases s with
      | nil => simp [scan_nil hc]
      | cons c s =>
        simp only [List.mem_cons, not_or] at hnl
        simp only [List.length_cons, Nat.add_le_add_iff_right] at hs
        rw [scan_cons_of_none tmpl hm]
        simp only [List.mem_cons, not_or]
        exact ⟨hnl.1, ih s hs hnl.2 (some c)⟩
    | some m =>
      obtain ⟨w, hw, _, hcap, _, _, _⟩ := matchHere_spec _ _ _ _ hm
      have hlt := matchHere_rest_lt hc hm
      have hw' : '\n' ∉ w := fun h => hnl (by rw [hw]; exact List.mem_append_left _ h)
      have hr' : '\n' ∉ m.rest := fun h => hnl (by rw [hw]; exact List.mem_append_right _ h)
      rw [scan_of_some hc tmpl hm]
      intro h
      rcases List.mem_append.1 h with h | h
      · exact expand_nl_free ht (fun h' => hw' (hcap _ h')) h
      · exact ih m.rest (by omega) hr' m.last h

/-- The method `ReplaceAll` with such a pattern and template keeps the number of
newlines. -/
theorem ReplaceAll_count_newline {re : Regexp} (hc : consumes re = true)
    (hll : lineLocal re = true) {tmpl : List Piece} (ht : tmplNlFree tmpl = true) :
    ∀ (n : Nat) (a : Str), a.length ≤ n →
      (ReplaceAll re a tmpl).count '\n' = a.count '\n' := by
  intro n
  induction n with
  | zero =>
    intro a ha
    have hnil : a = [] := List.length_eq_zero.1 (Nat.le_zero.1 ha)
    subst hnil
    simp [ReplaceAll_eq_scan, scan_nil hc]
  | succ n ih =>
    intro a ha
    by_cases hnl : '\n' ∈ a
    · obtain ⟨t, a', e, hn⟩ := exists_first_newline a hnl
      subst e
      have hlen : a'.length ≤ n := by simp at ha; omega
      rw [ReplaceAll_newline hc hll tmpl t.length t (le_refl _) a']
      have h1 : (ReplaceAll re t tmpl).count '\n' = 0 :=
        List.count_eq_zero.2 (scan_nl_free hc ht t.length t (le_refl _) hn none)
      have h2 : t.count '\n' = 0 := List.count_eq_zero.2 hn
      simp [List.count_append, h1, h2, ih a' hlen]
    · rw [List.count_eq_zero.2 hnl]
      exact List.count_eq_zero.2 (scan_nl_free hc ht a.length a (le_refl _) hnl none)

/-! ## Greedy capture followed by literals -/

theorem matchRep_none_of_failsFrom {cls : CharClass} {k : Option Char → Str → Option Found} :
    ∀ (s : Str) (need : Nat) (prev : Option Char), FailsFrom k s →
      matchRep cls k need prev s = none := by
  intro s
  induction s with
  | nil => intro need prev h; simp [matchRep, h prev]
  | cons c s ih =>
    intro need prev h
    unfold matchRep
    simp [ih _ _ h.2, h.1 prev]

theorem failsFrom_of_lit {ns : Regexp} {c : Char} (hc : Node.lit c ∈ ns) :
    ∀ (s : Str), c ∉ s → FailsFrom (matchHere ns) s := by
  intro s
  induction s with
  | nil => intro h q; exact matchHere_none_of_lit hc q h
  | cons d s ih =>
    intro h
    exact ⟨fun q => matchHere_none_of_lit hc q h, ih (fun hm => h (List.mem_cons_of_mem _ hm))⟩

/-- The group `(cls+)` takes `text` when the rest of the pattern matches right
after `text` and at no later position. -/
theorem matchHere_capture {cls : CharClass} {ns : Regexp} {prev : Option Char} {text t : Str}
    {c : Char} {m : Found} (hne : text ≠ []) (hall : ∀ d ∈ text, cls.mem d = true)
    (hk : matchHere ns (lastOf prev text) (c :: t) = some m)
    (hf : FailsFrom (matchHere ns) t) :
    matchHere (.rep cls 1 true :: ns) prev (text ++ c :: t) = some { m with cap := text } := by
  have hlen : 1 - text.length = 0 := by
    cases text with
    | nil => exact absurd rfl hne
    | cons d text => simp
  have h0 : matchRep cls (matchHere ns) (1 - text.length) (lastOf prev text) (c :: t)
      = some ([], m) := by
    rw [hlen]
    unfold matchRep
    simp [matchRep_none_of_failsFrom t _ _ hf, hk]
  have := matchRep_peel text 1 prev (c :: t) [] m hall h0
  simp only [matchHere, this]
  simp

theorem matchHere_lit (c : Char) (ns : Regexp) (p : Option Char) (s : Str) :
    matchHere (.lit c :: ns) p (c :: s) = matchHere ns (some c) s := by
  simp [matchHere]

theorem matchHere_lit_ne {c d : Char} (h : d ≠ c) (ns : Regexp) (p : Option Char) (s : Str) :
    matchHere (.lit c :: ns) p (d :: s) = none := by
  simp [matchHere, h]

theorem matchHere_bol (ns : Regexp) (s : Str) :
    matchHere (.bol :: ns) none s = matchHere ns none s := by
  simp [matchHere]

theorem matchHere_rep (cls : CharClass) (min : Nat) (cap : Bool) (ns : Regexp)
    (p : Option Char) (s : Str) :
    matchHere (.rep cls min cap :: ns) p s =
      match matchRep cls (matchHere ns) min p s with
      | some (w, m) => some (if cap then { m with cap := w } else m)
      | none => none := by
  rw [matchHere]

theorem matchHere_nil (p : Option Char) (s : Str) :
    matchHere [] p s = some ⟨[], p, s⟩ := rfl

theorem dot_mem_of_nl_free {text : Str} (h : '\n' ∉ text) :
    ∀ d ∈ text, CharClass.dot.mem d = true := by
  intro d hd
  simp only [CharClass.mem, bne_iff_ne, ne_eq]
  rintro rfl
  exact h hd

/-! ## The patterns of `wiki.go`, node by node -/

theorem h1regexp_eq : h1regexp =
    [.bol, .lit '#', .lit ' ', .rep .dot 1 true, .lit ' ', .lit '#'] := by decide
theorem h2regexp_eq : h2regexp =
    [.bol, .lit '#', .lit '#', .lit ' ', .rep .dot 1 true, .lit ' ', .lit '#', .lit '#'] := by
  decide
theorem h3regexp_eq : h3regexp =
    [.bol, .lit '#', .lit '#', .lit '#', .lit ' ', .rep .dot 1 true,
      .lit ' ', .lit '#', .lit '#', .lit '#'] := by decide
theorem h4regexp_eq : h4regexp =
    [.bol, .lit '#', .lit '#', .lit '#', .lit '#', .lit ' ', .rep .dot 1 true,
      .lit ' ', .lit '#', .lit '#', .lit '#', .lit '#'] := by decide
theorem h5regexp_eq : h5regexp =
    [.bol, .lit '#', .lit '#', .lit '#', .lit '#', .lit '#', .lit ' ', .rep .dot 1 true,
      .lit ' ', .lit '#', .lit '#', .lit '#', .lit '#', .lit '#'] := by decide
theorem h6regexp_eq : h6regexp =
    [.bol, .lit '#', .lit '#', .lit '#', .lit '#', .lit '#', .lit '#', .lit ' ',
      .rep .dot 1 true, .lit ' ', .lit '#', .lit '#', .lit '#', .lit '#', .lit '#', .lit '#'] := by
  decide
theorem italicregexp_eq : italicregexp =
    [.lit ' ', .lit '*', .rep .dot 1 true, .lit '*'] := by decide
theorem boldregexp_eq : boldregexp =
    [.lit '*', .lit '*', .rep .dot 1 true, .lit '*', .lit '*'] := by decide
theorem striketroughregexp_eq : striketroughregexp =
    [.lit '~', .rep .dot 1 true, .lit '~'] := by decide

/-- The heading pattern of level `L` matches, at the start of a line, the
hashes, the text and the hashes, with the text as its group, whatever follows
as long as that has no hash. -/
theorem headingRegexp_match (L : Nat) (h1 : 1 ≤ L) (h6 : L ≤ 6) (text rest : Str)
    (hne : text ≠ []) (hnl : '\n' ∉ text) (hrest : '#' ∉ rest) :
    matchHere (headingRegexp L) none (hashes L ++ ' ' :: text ++ ' ' :: hashes L ++ rest) =
      some ⟨text, some '#', rest⟩ := by
  have hall := dot_mem_of_nl_free hnl
  have hf : ∀ ns, Node.lit '#' ∈ ns → FailsFrom (matchHere ns) rest :=
    fun ns h => failsFrom_of_lit h rest hrest
  obtain rfl | rfl | rfl | rfl | rfl | rfl : L = 1 ∨ L = 2 ∨ L = 3 ∨ L = 4 ∨ L = 5 ∨ L = 6 := by
    omega
  all_goals
    simp only [headingRegexp, h1regexp_eq, h2regexp_eq, h3regexp_eq, h4regexp_eq, h5regexp_eq,
      h6regexp_eq, hashes, List.replicate, List.cons_append, List.nil_append, List.append_assoc,
      matchHere_bol, matchHere_lit]
    rw [matchHere_capture hne hall (m := ⟨[], some '#', rest⟩)]
    · simp only [matchHere_lit, matchHere_nil]
    · simp only [FailsFrom]
      repeat' apply And.intro
      all_goals first
        | (intro q; exact matchHere_lit_ne (by decide) _ _ _)
        | (apply hf; simp)

theorem headingRegexp_bol (k : Nat) :
    ∃ ns, headingRegexp k = .bol :: ns ∧ consumes (.bol :: ns) = true := by
  unfold headingRegexp
  split
  · exact ⟨_, h1regexp_eq, by decide⟩
  · exact ⟨_, h2regexp_eq, by decide⟩
  · exact ⟨_, h3regexp_eq, by decide⟩
  · exact ⟨_, h4regexp_eq, by decide⟩
  · exact ⟨_, h5regexp_eq, by decide⟩
  · exact ⟨_, h6regexp_eq, by decide⟩

/-- A heading pattern that fails at the start of a line leaves the line. -/
theorem heading_replace_none (k : Nat) (tmpl : List Piece) (s : Str) (hs : '\n' ∉ s)
    (hm : matchHere (headingRegexp k) none s = none) :
    ReplaceAll (headingRegexp k) s tmpl = s := by
  obtain ⟨ns, e, hc⟩ := headingRegexp_bol k
  rw [e] at hm ⊢
  exact scan_bol_none hc tmpl s hs hm

/-- A heading pattern that matches at the start of a line replaces that match
and keeps what follows it on the line. -/
theorem heading_replace_some (k : Nat) (tmpl : List Piece) (s : Str) (hs : '\n' ∉ s)
    {m : Found} (hm : matchHere (headingRegexp k) none s = some m) :
    ReplaceAll (headingRegexp k) s tmpl = expand tmpl m.cap ++ m.rest := by
  obtain ⟨ns, e, hc⟩ := headingRegexp_bol k
  rw [e] at hm ⊢
  exact scan_bol_some hc tmpl s hs hm

/-- No heading pattern matches at a position whose character is not a hash. -/
theorem headingRegexp_none_of_ne (k : Nat) (c : Char) (hc : c ≠ '#') (s : Str) :
    matchHere (headingRegexp k) none (c :: s) = none := by
  unfold headingRegexp
  split <;>
    simp only [h1regexp_eq, h2regexp_eq, h3regexp_eq, h4regexp_eq, h5regexp_eq, h6regexp_eq,
      matchHere_bol] <;>
    exact matchHere_lit_ne hc _ _ _

/-- The heading pattern of another level does not match a line that starts
with `L` hashes and a space. -/
theorem headingRegexp_none_of_level (k L : Nat) (hk1 : 1 ≤ k) (hk6 : k ≤ 6) (hL1 : 1 ≤ L)
    (hL6 : L ≤ 6) (hne : k ≠ L) (s : Str) :
    matchHere (headingRegexp k) none (hashes L ++ ' ' :: s) = none := by
  interval_cases k <;> interval_cases L <;>
    first
    | exact absurd rfl hne
    | simp [headingRegexp, h1regexp_eq, h2regexp_eq, h3regexp_eq, h4regexp_eq, h5regexp_eq,
        h6regexp_eq, hashes, List.replicate, matchHere]

/-- The rule pattern leaves a line that has a character outside its class. -/
theorem hr_replace_none (tmpl : List Piece) (s : Str) (hs : '\n' ∉ s) (c : Char) (hc : c ∈ s)
    (hout : ¬ ('*'.toNat ≤ c.toNat ∧ c.toNat ≤ '_'.toNat)) :
    ReplaceAll hrregexp s tmpl = s := by
  apply scan_bol_none (by decide) tmpl s hs
  cases hm : matchHere [.bol, .rep (.ranges [('*', '_')]) 3 false, .eol] none s with
  | none => rfl
  | some m =>
    exfalso
    rw [matchHere_bol, matchHere_rep] at hm
    cases hr : matchRep (.ranges [('*', '_')]) (matchHere [.eol]) 3 none s with
    | none => simp [hr] at hm
    | some r =>
      obtain ⟨w, m'⟩ := r
      obtain ⟨hall, _, t, hst, hk⟩ := matchRep_some _ _ _ _ _ hr
      have ht : t = [] := by
        cases t with
        | nil => rfl
        | cons d t =>
          simp only [matchHere, List.head?_cons] at hk
          split at hk
          · rename_i hd
            simp at hd
            subst hd
            exact absurd (by rw [hst]; simp) hs
          · cases hk
      subst ht
      rw [List.append_nil] at hst
      subst hst
      have := hall c hc
      simp [CharClass.mem] at this
      exact hout this

theorem searchFrom_bol_inside (ns : Regexp) :
    ∀ (s : Str) (c : Char), c ≠ '\n' → '\n' ∉ s → searchFrom (.bol :: ns) (some c) s = false := by
  intro s
  induction s with
  | nil => intro c hc _; simp [searchFrom, matchHere_bol_none ns hc]
  | cons d s ih =>
    intro c hc hs
    simp only [List.mem_cons, not_or] at hs
    simp [searchFrom, matchHere_bol_none ns hc, ih d (fun h => hs.1 h.symm) hs.2]

/-- On one line a pattern anchored with `(?m)^` is found exactly when it
matches at the start of the line. -/
theorem MatchString_bol (ns : Regexp) (s : Str) (hs : '\n' ∉ s) :
    MatchString (.bol :: ns) s = (matchHere (.bol :: ns) none s).isSome := by
  cases s with
  | nil => simp [MatchString, searchFrom]
  | cons c s =>
    simp only [List.mem_cons, not_or] at hs
    simp [MatchString, searchFrom, searchFrom_bol_inside ns s c (fun h => hs.1 h.symm) hs.2]

theorem render_eq (b : Str) :
    render b =
      ReplaceAll hrregexp
        (ReplaceAll striketroughregexp
          (ReplaceAll boldregexp
            (ReplaceAll italicregexp
              (ReplaceAll (headingRegexp 6)
                (ReplaceAll (headingRegexp 5)
                  (ReplaceAll (headingRegexp 4)
                    (ReplaceAll (headingRegexp 3)
                      (ReplaceAll (headingRegexp 2)
                        (ReplaceAll (headingRegexp 1) b (headingTemplate 1))
                        (headingTemplate 2))
                      (headingTemplate 3))
                    (headingTemplate 4))
                  (headingTemplate 5))
                (headingTemplate 6))
              (wrap "<i>" "</i>"))
            (wrap "<b>" "</b>"))
          (wrap "<s>" "</s>"))
        [.text "<hr>".toList] := rfl

theorem italic_replace_none (tmpl : List Piece) (s : Str) (h : '*' ∉ s) :
    ReplaceAll italicregexp s tmpl = s :=
  scan_of_lit_not_mem (by decide) tmpl (c := '*') (by decide) s none h

theorem bold_replace_none (tmpl : List Piece) (s : Str) (h : '*' ∉ s) :
    ReplaceAll boldregexp s tmpl = s :=
  scan_of_lit_not_mem (by decide) tmpl (c := '*') (by decide) s none h

theorem strike_replace_none (tmpl : List Piece) (s : Str) (h : '~' ∉ s) :
    ReplaceAll striketroughregexp s tmpl = s :=
  scan_of_lit_not_mem (by decide) tmpl (c := '~') (by decide) s none h

theorem heading_replace_none_of_no_hash (k : Nat) (tmpl : List Piece) (s : Str) (h : '#' ∉ s) :
    ReplaceAll (headingRegexp k) s tmpl = s := by
  obtain ⟨ns, e, hc⟩ := headingRegexp_bol k
  have hl : Node.lit '#' ∈ headingRegexp k := by
    unfold headingRegexp
    split <;> decide
  exact scan_of_lit_not_mem (e ▸ hc) tmpl hl s none h

theorem expand_headingTemplate (L : Nat) (h1 : 1 ≤ L) (h6 : L ≤ 6) (text : Str) :
    expand (headingTemplate L) text = openTag (tagLevel L) ++ (text ++ closeTag (tagLevel L)) := by
  interval_cases L <;>
    simp only [headingTemplate, wrap, expand, List.flatMap_cons, List.flatMap_nil, tagLevel,
      openTag, closeTag, List.append_nil] <;> rfl

/-- What `renderMarkdown` makes of a line that starts with a heading of level
`L`: the heading becomes the tag pair around its text, the rest of the line
stays. -/
theorem render_heading (L : Nat) (h1 : 1 ≤ L) (h6 : L ≤ 6) (text rest : Str)
    (hne : text ≠ []) (hnl : '\n' ∉ text) (hstar : '*' ∉ text) (htilde : '~' ∉ text)
    (rnl : '\n' ∉ rest) (rstar : '*' ∉ rest) (rtilde : '~' ∉ rest) (rhash : '#' ∉ rest) :
    render (hashes L ++ ' ' :: (text ++ ' ' :: (hashes L ++ rest))) =
      openTag (tagLevel L) ++ (text ++ (closeTag (tagLevel L) ++ rest)) := by
  have hh : ∀ c, c ≠ '#' → c ∉ hashes L := by
    intro c hc hm
    exact hc (List.eq_of_mem_replicate hm)
  have lnl : '\n' ∉ hashes L ++ ' ' :: (text ++ ' ' :: (hashes L ++ rest)) := by
    simp [hh, hnl, rnl]
  have hm : matchHere (headingRegexp L) none
      (hashes L ++ ' ' :: (text ++ ' ' :: (hashes L ++ rest))) = some ⟨text, some '#', rest⟩ := by
    have := headingRegexp_match L h1 h6 text rest hne hnl rhash
    simpa [List.append_assoc] using this
  have onl : '\n' ∉ openTag (tagLevel L) ++ (text ++ (closeTag (tagLevel L) ++ rest)) := by
    simp only [tagLevel]
    interval_cases L <;> simp [openTag, closeTag, hnl, rnl] <;> decide
  have ostar : '*' ∉ openTag (tagLevel L) ++ (text ++ (closeTag (tagLevel L) ++ rest)) := by
    simp only [tagLevel]
    interval_cases L <;> simp [openTag, closeTag, hstar, rstar] <;> decide
  have otilde : '~' ∉ openTag (tagLevel L) ++ (text ++ (closeTag (tagLevel L) ++ rest)) := by
    simp only [tagLevel]
    interval_cases L <;> simp [openTag, closeTag, htilde, rtilde] <;> decide
  have step1 : ∀ k, 1 ≤ k → k ≤ 6 → k ≠ L → ∀ tmpl,
      ReplaceAll (headingRegexp k) (hashes L ++ ' ' :: (text ++ ' ' :: (hashes L ++ rest))) tmpl
        = hashes L ++ ' ' :: (text ++ ' ' :: (hashes L ++ rest)) :=
    fun k k1 k6 kne tmpl => heading_replace_none k tmpl _ lnl
      (headingRegexp_none_of_level k L k1 k6 h1 h6 kne _)
  have step2 : ReplaceAll (headingRegexp L)
      (hashes L ++ ' ' :: (text ++ ' ' :: (hashes L ++ rest))) (headingTemplate L)
        = openTag (tagLevel L) ++ (text ++ (closeTag (tagLevel L) ++ rest)) := by
    rw [heading_replace_some L _ _ lnl hm, expand_headingTemplate L h1 h6]
    simp
  have step3 : ∀ k tmpl,
      ReplaceAll (headingRegexp k)
        (openTag (tagLevel L) ++ (text ++ (closeTag (tagLevel L) ++ rest))) tmpl
        = openTag (tagLevel L) ++ (text ++ (closeTag (tagLevel L) ++ rest)) :=
    fun k tmpl => heading_replace_none k tmpl _ onl
      (headingRegexp_none_of_ne k '<' (by decide) _)
  have hr := hr_replace_none [.text "<hr>".toList]
    (openTag (tagLevel L) ++ (text ++ (closeTag (tagLevel L) ++ rest))) onl 'h'
    (by simp [openTag]) (by decide)
  rw [render_eq]
  obtain rfl | rfl | rfl | rfl | rfl | rfl : L = 1 ∨ L = 2 ∨ L = 3 ∨ L = 4 ∨ L = 5 ∨ L = 6 := by
    omega
  all_goals
    first
      | rw [step1 1 (by decide) (by decide) (by decide)]
      | rw [step2]
    first
      | rw [step1 2 (by decide) (by decide) (by decide)]
      | rw [step2]
      | rw [step3 2]
    first
      | rw [step1 3 (by decide) (by decide) (by decide)]
      | rw [step2]
      | rw [step3 3]
    first
      | rw [step1 4 (by decide) (by decide) (by decide)]
      | rw [step2]
      | rw [step3 4]
    first
      | rw [step1 5 (by decide) (by decide) (by decide)]
      | rw [step2]
      | rw [step3 5]
    first
      | rw [step2]
      | rw [step3 6]
    rw [italic_replace_none _ _ ostar, bold_replace_none _ _ ostar,
      strike_replace_none _ _ otilde, hr]

/-! ## Title validation and the handlers -/

theorem searchFrom_bot_inside (ns : Regexp) :
    ∀ (s : Str) (c : Char), searchFrom (.bot :: ns) (some c) s = false := by
  intro s
  induction s with
  | nil => intro c; simp [searchFrom, matchHere]
  | cons d s ih => intro c; simp [searchFrom, matchHere, ih d]

theorem titleValidator_mem (c : Char) :
    CharClass.mem (.ranges [('a', 'z'), ('A', 'Z'), ('0', '9')]) c = isAsciiAlnum c := by
  simp [CharClass.mem, isAsciiAlnum, Bool.or_assoc]

/-- The title pattern matches at the start of a text exactly the valid titles. -/
theorem titleValidator_matchHere (t : Str) :
    (matchHere titleValidator none t).isSome = true ↔ validTitle t := by
  have e : matchHere titleValidator none t =
      match matchRep (.ranges [('a', 'z'), ('A', 'Z'), ('0', '9')]) (matchHere [.eot]) 1 none t with
      | some (_, m) => some m
      | none => none := by
    simp only [titleValidator]
    rw [matchHere, if_pos rfl, matchHere_rep]
    rfl
  rw [e]
  constructor
  · intro h
    cases hr : matchRep (.ranges [('a', 'z'), ('A', 'Z'), ('0', '9')]) (matchHere [.eot]) 1 none t with
    | none => simp [hr] at h
    | some r =>
      obtain ⟨w, m⟩ := r
      obtain ⟨hall, hlen, u, hu, hk⟩ := matchRep_some _ _ _ _ _ hr
      have hnil : u = [] := by
        cases u with
        | nil => rfl
        | cons d u => simp [matchHere] at hk
      subst hnil
      rw [List.append_nil] at hu
      subst hu
      refine ⟨?_, fun c hc => ?_⟩
      · intro e; subst e; simp at hlen
      · rw [← titleValidator_mem]; exact hall c hc
  · rintro ⟨hne, hall⟩
    have h0 : 1 - t.length = 0 := by
      cases t with
      | nil => exact absurd rfl hne
      | cons c t => simp
    have : matchRep (.ranges [('a', 'z'), ('A', 'Z'), ('0', '9')]) (matchHere [.eot]) 1 none
        (t ++ []) = some (t ++ [], ⟨[], lastOf none t, []⟩) :=
      matchRep_peel t 1 none [] [] _
      (fun c hc => by rw [titleValidator_mem]; exact hall c hc)
      (by rw [h0]; simp [matchRep, matchHere])
    rw [List.append_nil] at this
    simp [this]

/-- The call `titleValidator.MatchString` accepts exactly the valid titles. -/
theorem titleValidator_MatchString (t : Str) :
    MatchString titleValidator t = true ↔ validTitle t := by
  rw [← titleValidator_matchHere]
  cases t with
  | nil => simp [MatchString, searchFrom]
  | cons c t =>
    have := searchFrom_bot_inside [.rep (.ranges [('a', 'z'), ('A', 'Z'), ('0', '9')]) 1 false, .eot]
      t c
    simp only [MatchString, searchFrom, titleValidator] at this ⊢
    simp [this]

theorem italic_match (p : Option Char) (text suf : Str) (hne : text ≠ []) (hnl : '\n' ∉ text)
    (hsuf : '*' ∉ suf) :
    matchHere italicregexp p (' ' :: '*' :: (text ++ '*' :: suf)) =
      some ⟨text, some '*', suf⟩ := by
  rw [italicregexp_eq, matchHere_lit, matchHere_lit,
    matchHere_capture hne (dot_mem_of_nl_free hnl) (m := ⟨[], some '*', suf⟩)]
  · rw [matchHere_lit, matchHere_nil]
  · exact failsFrom_of_lit (by simp) suf hsuf

theorem strike_match (p : Option Char) (text suf : Str) (hne : text ≠ []) (hnl : '\n' ∉ text)
    (hsuf : '~' ∉ suf) :
    matchHere striketroughregexp p ('~' :: (text ++ '~' :: suf)) =
      some ⟨text, some '~', suf⟩ := by
  rw [striketroughregexp_eq, matchHere_lit,
    matchHere_capture hne (dot_mem_of_nl_free hnl) (m := ⟨[], some '~', suf⟩)]
  · rw [matchHere_lit, matchHere_nil]
  · exact failsFrom_of_lit (by simp) suf hsuf

theorem bold_match (p : Option Char) (text suf : Str) (hne : text ≠ []) (hnl : '\n' ∉ text)
    (hsuf : '*' ∉ suf) :
    matchHere boldregexp p ('*' :: '*' :: (text ++ '*' :: '*' :: suf)) =
      some ⟨text, some '*', suf⟩ := by
  rw [boldregexp_eq, matchHere_lit, matchHere_lit,
    matchHere_capture hne (dot_mem_of_nl_free hnl) (m := ⟨[], some '*', suf⟩)]
  · rw [matchHere_lit, matchHere_lit, matchHere_nil]
  · exact ⟨fun q => by
      cases suf with
      | nil => simp [matchHere]
      | cons d suf =>
        have : d ≠ '*' := fun e => hsuf (by simp [e])
        simp [matchHere, this], failsFrom_of_lit (by simp) suf hsuf⟩

/-- The italic rule on a line with one ` *text*`: the stretch before it is
copied, the match replaced, the stretch after it copied. -/
theorem italic_replace (pre text suf : Str) (hne : text ≠ []) (hnl : '\n' ∉ text)
    (hpre : '*' ∉ pre) (hsuf : '*' ∉ suf) :
    ReplaceAll italicregexp (pre ++ ' ' :: '*' :: (text ++ '*' :: suf)) (wrap "<i>" "</i>") =
      pre ++ ("<i>".toList ++ (text ++ ("</i>".toList ++ suf))) := by
  rw [ReplaceAll_eq_scan, scan_skip]
  · rw [scan_of_some (by decide) _ (italic_match _ text suf hne hnl hsuf)]
    have : scan italicregexp (wrap "<i>" "</i>") (some '*') suf = suf :=
      scan_of_lit_not_mem (by decide) _ (by decide) suf _ hsuf
    rw [this]
    simp only [wrap, expand, List.flatMap_cons, List.flatMap_nil, List.append_nil,
      List.append_assoc]
  · intro p1 c p2 e
    rw [italicregexp_eq]
    by_cases hc : c = ' '
    · subst hc
      rw [List.cons_append, matchHere_lit]
      cases p2 with
      | nil => exact matchHere_lit_ne (by decide) _ _ _
      | cons d p2 =>
        have : d ≠ '*' := fun h => hpre (by rw [e, h]; simp)
        exact matchHere_lit_ne this _ _ _
    · exact matchHere_lit_ne hc _ _ _

/-- The strikethrough rule on a line whose first `~` opens `~text~` and whose
last `~` closes it. -/
theorem strike_replace (pre text suf : Str) (hne : text ≠ []) (hnl : '\n' ∉ text)
    (hpre : '~' ∉ pre) (hsuf : '~' ∉ suf) :
    ReplaceAll striketroughregexp (pre ++ '~' :: (text ++ '~' :: suf)) (wrap "<s>" "</s>") =
      pre ++ ("<s>".toList ++ (text ++ ("</s>".toList ++ suf))) := by
  rw [ReplaceAll_eq_scan, scan_skip]
  · rw [scan_of_some (by decide) _ (strike_match _ text suf hne hnl hsuf)]
    have : scan striketroughregexp (wrap "<s>" "</s>") (some '~') suf = suf :=
      scan_of_lit_not_mem (by decide) _ (by decide) suf _ hsuf
    rw [this]
    simp only [wrap, expand, List.flatMap_cons, List.flatMap_nil, List.append_nil,
      List.append_assoc]
  · intro p1 c p2 e
    rw [striketroughregexp_eq]
    have : c ≠ '~' := fun h => hpre (by rw [e, h]; simp)
    exact matchHere_lit_ne this _ _ _

/-- The bold rule on a line with one `**text**`. -/
theorem bold_replace (pre text suf : Str) (hne : text ≠ []) (hnl : '\n' ∉ text)
    (hpre : '*' ∉ pre) (hsuf : '*' ∉ suf) :
    ReplaceAll boldregexp (pre ++ '*' :: '*' :: (text ++ '*' :: '*' :: suf)) (wrap "<b>" "</b>") =
      pre ++ ("<b>".toList ++ (text ++ ("</b>".toList ++ suf))) := by
  rw [ReplaceAll_eq_scan, scan_skip]
  · rw [scan_of_some (by decide) _ (bold_match _ text suf hne hnl hsuf)]
    have : scan boldregexp (wrap "<b>" "</b>") (some '*') suf = suf :=
      scan_of_lit_not_mem (by decide) _ (by decide) suf _ hsuf
    rw [this]
    simp only [wrap, expand, List.flatMap_cons, List.flatMap_nil, List.append_nil,
      List.append_assoc]
  · intro p1 c p2 e
    rw [boldregexp_eq]
    have : c ≠ '*' := fun h => hpre (by rw [e, h]; simp)
    exact matchHere_lit_ne this _ _ _

theorem matchHere_lit_some {c : Char} {ns : Regexp} {p : Option Char} {s : Str} {m : Found}
    (h : matchHere (.lit c :: ns) p s = some m) :
    ∃ s', s = c :: s' ∧ matchHere ns (some c) s' = some m := by
  cases s with
  | nil => simp [matchHere] at h
  | cons d s' =>
    by_cases hd : d = c
    · subst hd; exact ⟨s', rfl, by simpa [matchHere] using h⟩
    · rw [matchHere_lit_ne hd] at h; cases h

/-- A match of the bold pattern reads `**`, a non-empty text and `**`. -/
theorem bold_match_shape {p : Option Char} {s : Str} {m : Found}
    (h : matchHere boldregexp p s = some m) :
    ∃ w, w ≠ [] ∧ s = '*' :: '*' :: (w ++ '*' :: '*' :: m.rest) := by
  rw [boldregexp_eq] at h
  obtain ⟨s1, rfl, h1⟩ := matchHere_lit_some h
  obtain ⟨s2, rfl, h2⟩ := matchHere_lit_some h1
  rw [matchHere_rep] at h2
  cases hr : matchRep .dot (matchHere [.lit '*', .lit '*']) 1 (some '*') s2 with
  | none => simp [hr] at h2
  | some r =>
    obtain ⟨w, m'⟩ := r
    simp only [hr, if_true, Option.some.injEq] at h2
    obtain ⟨_, hlen, t, rfl, hk⟩ := matchRep_some _ _ _ _ _ hr
    obtain ⟨t1, rfl, hk1⟩ := matchHere_lit_some hk
    obtain ⟨t2, rfl, hk2⟩ := matchHere_lit_some hk1
    rw [matchHere_nil] at hk2
    simp only [Option.some.injEq] at hk2
    refine ⟨w, ?_, ?_⟩
    · intro e; subst e; simp at hlen
    · subst h2; subst hk2; rfl

/-- The bold rule leaves a text in which `**`, some text and `**` do not
occur in this order. -/
theorem bold_replace_none_of_shape (tmpl : List Piece) (s : Str)
    (h : ¬ ∃ u w v, w ≠ [] ∧ s = u ++ '*' :: '*' :: (w ++ '*' :: '*' :: v)) :
    ReplaceAll boldregexp s tmpl = s := by
  apply scan_unchanged (by decide)
  intro p1 c p2 e
  cases hm : matchHere boldregexp (lastOf none p1) (c :: p2) with
  | none => rfl
  | some m =>
    obtain ⟨w, hw, hs⟩ := bold_match_shape hm
    exact absurd ⟨p1, w, m.rest, hw, by rw [e, hs]⟩ h

/-- The rule pattern replaces a line of three or more characters of its
class. -/
theorem hr_replace (s : Str) (hlen : 3 ≤ s.length)
    (hall : ∀ c ∈ s, '*'.toNat ≤ c.toNat ∧ c.toNat ≤ '_'.toNat) :
    ReplaceAll hrregexp s [.text "<hr>".toList] = "<hr>".toList := by
  have hs : '\n' ∉ s := fun h => by
    have := (hall _ h).1
    revert this
    decide
  have hm : matchHere hrregexp none s = some ⟨[], lastOf none s, []⟩ := by
    show matchHere [.bol, .rep (.ranges [('*', '_')]) 3 false, .eol] none s = _
    rw [matchHere_bol, matchHere_rep]
    have : matchRep (.ranges [('*', '_')]) (matchHere [.eol]) 3 none (s ++ []) =
        some (s ++ [], ⟨[], lastOf none s, []⟩) :=
      matchRep_peel s 3 none [] [] _ (fun c hc => by simpa [CharClass.mem] using hall c hc)
      (by
        have : 3 - s.length = 0 := by omega
        rw [this]
        simp [matchRep, matchHere])
    rw [List.append_nil] at this
    simp [this]
  have : scan [.bol, .rep (.ranges [('*', '_')]) 3 false, .eol] [.text "<hr>".toList] none s =
      expand [.text "<hr>".toList] [] ++ [] :=
    scan_bol_some (by decide) _ s hs hm
  rw [ReplaceAll_eq_scan]
  show scan [.bol, .rep (.ranges [('*', '_')]) 3 false, .eol] _ none s = _
  rw [this]
  simp [expand]

theorem headingRegexp_consumes (k : Nat) : consumes (headingRegexp k) = true := by
  unfold headingRegexp; split <;> decide

theorem headingRegexp_lineLocal (k : Nat) : lineLocal (headingRegexp k) = true := by
  unfold headingRegexp; split <;> decide

theorem headingTemplate_nlFree (k : Nat) : tmplNlFree (headingTemplate k) = true := by
  unfold headingTemplate; split <;> decide

theorem render_nil : render [] = [] := by
  decide

/-- The renderer treats the two sides of a newline separately. -/
theorem render_append_newline (a b : Str) :
    render (a ++ '\n' :: b) = render a ++ '\n' :: render b := by
  have H : ∀ (re : Regexp) (_ : consumes re = true) (_ : lineLocal re = true)
      (tmpl : List Piece) (a b : Str),
      ReplaceAll re (a ++ '\n' :: b) tmpl = ReplaceAll re a tmpl ++ '\n' :: ReplaceAll re b tmpl :=
    fun _ hc hll tmpl a b => ReplaceAll_newline hc hll tmpl a.length a (le_refl _) b
  simp only [render_eq]
  rw [H (headingRegexp 1) (headingRegexp_consumes 1) (headingRegexp_lineLocal 1),
    H (headingRegexp 2) (headingRegexp_consumes 2) (headingRegexp_lineLocal 2),
    H (headingRegexp 3) (headingRegexp_consumes 3) (headingRegexp_lineLocal 3),
    H (headingRegexp 4) (headingRegexp_consumes 4) (headingRegexp_lineLocal 4),
    H (headingRegexp 5) (headingRegexp_consumes 5) (headingRegexp_lineLocal 5),
    H (headingRegexp 6) (headingRegexp_consumes 6) (headingRegexp_lineLocal 6),
    H italicregexp (by decide) (by decide),
    H boldregexp (by decide) (by decide),
    H striketroughregexp (by decide) (by decide),
    H hrregexp (by decide) (by decide)]

/-- The renderer keeps the number of newlines. -/
theorem render_count_newline (a : Str) : (render a).count '\n' = a.count '\n' := by
  have H : ∀ (re : Regexp) (_ : consumes re = true) (_ : lineLocal re = true)
      {tmpl : List Piece} (_ : tmplNlFree tmpl = true) (a : Str),
      (ReplaceAll re a tmpl).count '\n' = a.count '\n' :=
    fun _ hc hll _ ht a => ReplaceAll_count_newline hc hll ht a.length a (le_refl _)
  simp only [render_eq]
  rw [H hrregexp (by decide) (by decide) (by decide),
    H striketroughregexp (by decide) (by decide) (by decide),
    H boldregexp (by decide) (by decide) (by decide),
    H italicregexp (by decide) (by decide) (by decide),
    H (headingRegexp 6) (headingRegexp_consumes 6) (headingRegexp_lineLocal 6) (headingTemplate_nlFree 6),
    H (headingRegexp 5) (headingRegexp_consumes 5) (headingRegexp_lineLocal 5) (headingTemplate_nlFree 5),
    H (headingRegexp 4) (headingRegexp_consumes 4) (headingRegexp_lineLocal 4) (headingTemplate_nlFree 4),
    H (headingRegexp 3) (headingRegexp_consumes 3) (headingRegexp_lineLocal 3) (headingTemplate_nlFree 3),
    H (headingRegexp 2) (headingRegexp_consumes 2) (headingRegexp_lineLocal 2) (headingTemplate_nlFree 2),
    H (headingRegexp 1) (headingRegexp_consumes 1) (headingRegexp_lineLocal 1) (headingTemplate_nlFree 1)]

/-- The renderer works on each line of a body on its own. -/
theorem render_joinLines : ∀ (ls : List Str), render (joinLines ls) = joinLines (ls.map render)
  | [] => render_nil
  | [l] => rfl
  | l :: l' :: ls => by
    have ih := render_joinLines (l' :: ls)
    simp only [joinLines, List.map] at ih ⊢
    rw [render_append_newline, ih]

/-- The scenarios of the renderer that hold on the code as they are written:
headings of level 1, 2 and 6, italic, strikethrough, rule, plain text. -/
theorem render_scenarios :
    render "# Hello #".toList = "<h1>Hello</h1>".toList ∧
      render "## Sub ##".toList = "<h2>Sub</h2>".toList ∧
      render "###### Deep ######".toList = "<h5>Deep</h5>".toList ∧
      render "a *italic* b".toList = "a<i>italic</i> b".toList ∧
      render "done ~gone~".toList = "done <s>gone</s>".toList ∧
      render "---".toList = "<hr>".toList ∧
      render "no markup here".toList = "no markup here".toList := by
  decide

/-! ## Where the bold rule and the rule pattern go wrong -/

/-- The italic rule finds nothing in a line with one `**text**` that is not
preceded by a space. -/
theorem italic_replace_none_of_bold (tmpl : List Piece) (pre text suf : Str)
    (hlast : ∀ p, pre ≠ p ++ [' ']) (hpre : '*' ∉ pre) (htext : '*' ∉ text)
    (hsuf : '*' ∉ suf) :
    ReplaceAll italicregexp (pre ++ '*' :: '*' :: (text ++ '*' :: '*' :: suf)) tmpl =
      pre ++ '*' :: '*' :: (text ++ '*' :: '*' :: suf) := by
  have hstar : ∀ (p : Option Char) (s : Str), matchHere italicregexp p ('*' :: s) = none := by
    intro p s
    rw [italicregexp_eq]
    exact matchHere_lit_ne (by decide) _ _ _
  have hend : ∀ p, scan italicregexp tmpl p ('*' :: '*' :: suf) = '*' :: '*' :: suf := by
    intro p
    rw [scan_cons_of_none tmpl (hstar _ _), scan_cons_of_none tmpl (hstar _ _),
      scan_of_lit_not_mem (by decide) tmpl (by decide) suf _ hsuf]
  rw [ReplaceAll_eq_scan, scan_skip]
  · rw [scan_cons_of_none tmpl (hstar _ _), scan_cons_of_none tmpl (hstar _ _), scan_skip]
    · rw [hend]
    · intro t1 c t2 e
      rw [italicregexp_eq]
      by_cases hc : c = ' '
      · subst hc
        rw [List.cons_append, matchHere_lit]
        cases t2 with
        | nil =>
          rw [List.nil_append, matchHere_lit, matchHere_rep]
          have : matchRep .dot (matchHere [.lit '*']) 1 (some '*') ('*' :: suf) = none := by
            have h0 : matchRep .dot (matchHere [.lit '*']) 0 (some '*') suf = none :=
              matchRep_none_of_failsFrom suf _ _ (failsFrom_of_lit (by simp) suf hsuf)
            unfold matchRep
            simp [h0]
          rw [this]
        | cons d t2 =>
          have : d ≠ '*' := fun h => htext (by rw [e, h]; simp)
          exact matchHere_lit_ne this _ _ _
      · exact matchHere_lit_ne hc _ _ _
  · intro p1 c p2 e
    rw [italicregexp_eq]
    by_cases hc : c = ' '
    · subst hc
      rw [List.cons_append, matchHere_lit]
      cases p2 with
      | nil => exact absurd e (hlast p1)
      | cons d p2 =>
        have : d ≠ '*' := fun h => hpre (by rw [e, h]; simp)
        exact matchHere_lit_ne this _ _ _
    · exact matchHere_lit_ne hc _ _ _

/-- The bold rule does what it is written for on a line `pre`, `**`, `text`,
`**`, `suf` whenever `pre` does not end with a space. -/
theorem bold_line_rendered_of_no_space (pre text suf : Str) (hne : text ≠ [])
    (hlast : ∀ p, pre ≠ p ++ [' '])
    (pnl : '\n' ∉ pre) (phash : '#' ∉ pre) (pstar : '*' ∉ pre) (ptilde : '~' ∉ pre)
    (tnl : '\n' ∉ text) (thash : '#' ∉ text) (tstar : '*' ∉ text) (ttilde : '~' ∉ text)
    (snl : '\n' ∉ suf) (shash : '#' ∉ suf) (sstar : '*' ∉ suf) (stilde : '~' ∉ suf) :
    render (pre ++ "**".toList ++ text ++ "**".toList ++ suf) =
      pre ++ "<b>".toList ++ text ++ "</b>".toList ++ suf := by
  have e : pre ++ "**".toList ++ text ++ "**".toList ++ suf =
      pre ++ '*' :: '*' :: (text ++ '*' :: '*' :: suf) := by
    show pre ++ ['*', '*'] ++ text ++ ['*', '*'] ++ suf = _
    simp
  have hhash : '#' ∉ pre ++ '*' :: '*' :: (text ++ '*' :: '*' :: suf) := by
    simp only [List.mem_append, List.mem_cons, not_or]
    exact ⟨phash, by decide, by decide, thash, by decide, by decide, shash⟩
  have onl : '\n' ∉ pre ++ ("<b>".toList ++ (text ++ ("</b>".toList ++ suf))) := by
    simp only [List.mem_append, not_or]
    exact ⟨pnl, by decide, tnl, by decide, snl⟩
  have otilde : '~' ∉ pre ++ ("<b>".toList ++ (text ++ ("</b>".toList ++ suf))) := by
    simp only [List.mem_append, not_or]
    exact ⟨ptilde, by decide, ttilde, by decide, stilde⟩
  have omem : 'b' ∈ pre ++ ("<b>".toList ++ (text ++ ("</b>".toList ++ suf))) :=
    List.mem_append_right _ (List.mem_append_left _ (by decide))
  rw [e, render_eq]
  simp only [heading_replace_none_of_no_hash _ _ _ hhash]
  rw [italic_replace_none_of_bold _ pre text suf hlast pstar tstar sstar,
    bold_replace pre text suf hne tnl pstar sstar,
    strike_replace_none _ _ otilde, hr_replace_none _ _ onl 'b' omem (by decide)]
  simp only [List.append_assoc]

/-- The defect behind C2 in general: on a line `pre`, space, `**`, `text`,
`**`, `suf` the italic rule takes the space and the outer asterisks, and the
bold rule finds nothing left to do. -/
theorem bold_line_rendered_of_space (pre text suf : Str)
    (pnl : '\n' ∉ pre) (phash : '#' ∉ pre) (pstar : '*' ∉ pre) (ptilde : '~' ∉ pre)
    (tnl : '\n' ∉ text) (thash : '#' ∉ text) (tstar : '*' ∉ text) (ttilde : '~' ∉ text)
    (snl : '\n' ∉ suf) (shash : '#' ∉ suf) (sstar : '*' ∉ suf) (stilde : '~' ∉ suf) :
    render (pre ++ " ".toList ++ "**".toList ++ text ++ "**".toList ++ suf) =
      pre ++ "<i>*".toList ++ text ++ "*</i>".toList ++ suf := by
  have e : pre ++ " ".toList ++ "**".toList ++ text ++ "**".toList ++ suf =
      pre ++ ' ' :: '*' :: (('*' :: (text ++ ['*'])) ++ '*' :: suf) := by
    show pre ++ [' '] ++ ['*', '*'] ++ text ++ ['*', '*'] ++ suf = _
    simp
  have hhash : '#' ∉ pre ++ ' ' :: '*' :: (('*' :: (text ++ ['*'])) ++ '*' :: suf) := by
    simp only [List.mem_append, List.mem_cons, not_or, List.mem_singleton]
    exact ⟨phash, by decide, by decide, ⟨by decide, thash, by decide⟩, by decide, shash⟩
  have onl : '\n' ∉ pre ++ ("<i>".toList ++ (('*' :: (text ++ ['*'])) ++ ("</i>".toList ++ suf)))
      := by
    simp only [List.mem_append, List.mem_cons, not_or, List.mem_singleton]
    exact ⟨pnl, by decide, ⟨by decide, tnl, by decide⟩, by decide, snl⟩
  have otilde : '~' ∉
      pre ++ ("<i>".toList ++ (('*' :: (text ++ ['*'])) ++ ("</i>".toList ++ suf))) := by
    simp only [List.mem_append, List.mem_cons, not_or, List.mem_singleton]
    exact ⟨ptilde, by decide, ⟨by decide, ttilde, by decide⟩, by decide, stilde⟩
  have omem : 'i' ∈ pre ++ ("<i>".toList ++ (('*' :: (text ++ ['*'])) ++ ("</i>".toList ++ suf)))
      := List.mem_append_right _ (List.mem_append_left _ (by decide))
  have ocount : List.count '*'
      (pre ++ ("<i>".toList ++ (('*' :: (text ++ ['*'])) ++ ("</i>".toList ++ suf)))) = 2 := by
    simp only [List.count_append, List.count_cons_self, List.count_eq_zero.2 pstar,
      List.count_eq_zero.2 tstar, List.count_eq_zero.2 sstar,
      show List.count '*' "<i>".toList = 0 from by decide,
      show List.count '*' "</i>".toList = 0 from by decide,
      show List.count '*' ['*'] = 1 from by decide]
  have hshape : ¬ ∃ u w v, w ≠ [] ∧
      pre ++ ("<i>".toList ++ (('*' :: (text ++ ['*'])) ++ ("</i>".toList ++ suf))) =
        u ++ '*' :: '*' :: (w ++ '*' :: '*' :: v) := by
    rintro ⟨u, w, v, _, h⟩
    have hc := congrArg (List.count '*') h
    rw [ocount] at hc
    simp only [List.count_append, List.count_cons_self] at hc
    omega
  rw [e, render_eq]
  simp only [heading_replace_none_of_no_hash _ _ _ hhash]
  rw [italic_replace pre ('*' :: (text ++ ['*'])) suf (by simp)
      (by simp only [List.mem_cons, List.mem_append, List.mem_singleton, not_or]
          exact ⟨by decide, tnl, by decide⟩) pstar sstar,
    bold_replace_none_of_shape _ _ hshape,
    strike_replace_none _ _ otilde, hr_replace_none _ _ onl 'i' omem (by decide)]
  show _ = pre ++ ['<', 'i', '>', '*'] ++ text ++ ['*', '<', '/', 'i', '>'] ++ suf
  simp only [List.append_assoc, List.cons_append, List.nil_append]
  rfl

/-- The defect behind C4 in general: every line of three or more characters
between `+` and `_` in the character table, digits and capital letters
included, is rendered as `<hr>`. -/
theorem range_line_rendered (line : Str) (hlen : 3 ≤ line.length)
    (hall : ∀ c ∈ line, '+'.toNat ≤ c.toNat ∧ c.toNat ≤ '_'.toNat) :
    render line = "<hr>".toList := by
  have hhash : '#' ∉ line := fun h => by have := hall _ h; revert this; decide
  have hspace : ' ' ∉ line := fun h => by have := hall _ h; revert this; decide
  have hstar : '*' ∉ line := fun h => by have := hall _ h; revert this; decide
  have htilde : '~' ∉ line := fun h => by have := hall _ h; revert this; decide
  rw [render_eq]
  simp only [heading_replace_none_of_no_hash _ _ _ hhash]
  rw [italic_replace_none _ _ hstar, bold_replace_none _ _ hstar,
    strike_replace_none _ _ htilde]
  apply hr_replace line hlen
  intro c hc
  have := hall c hc
  constructor
  · have h1 : '*'.toNat ≤ '+'.toNat := by decide
    omega
  · exact this.2

/-! ## The claims -/

/-- C1: for every level `L` from 1 to 6 and every non-empty text without
newline, `*` and `~`, `renderMarkdown` turns the body made of the single line
`L` hashes, a space, the text, a space, `L` hashes into exactly `<hN>text</hN>`
with `N = L` for `L ≤ 5` and `N = 5` for `L = 6`; and no heading pattern of
another level matches that line. -/
theorem heading_line_rendered (L : Nat) (h1 : 1 ≤ L) (h6 : L ≤ 6) (text : Str)
    (hne : text ≠ []) (hnl : '\n' ∉ text) (hstar : '*' ∉ text) (htilde : '~' ∉ text) :
    render (hashes L ++ " ".toList ++ text ++ " ".toList ++ hashes L) =
        openTag (tagLevel L) ++ text ++ closeTag (tagLevel L) ∧
      ∀ k, 1 ≤ k → k ≤ 6 → k ≠ L →
        MatchString (headingRegexp k) (hashes L ++ " ".toList ++ text ++ " ".toList ++ hashes L)
          = false := by
  have e : hashes L ++ " ".toList ++ text ++ " ".toList ++ hashes L =
      hashes L ++ ' ' :: (text ++ ' ' :: (hashes L ++ [])) := by
    show hashes L ++ [' '] ++ text ++ [' '] ++ hashes L = _
    simp
  rw [e]
  constructor
  · have := render_heading L h1 h6 text [] hne hnl hstar htilde (by simp) (by simp) (by simp)
      (by simp)
    simpa using this
  · intro k k1 k6 kne
    have hh : ∀ c, c ≠ '#' → c ∉ hashes L := fun c hc hm => hc (List.eq_of_mem_replicate hm)
    have lnl : '\n' ∉ hashes L ++ ' ' :: (text ++ ' ' :: (hashes L ++ [])) := by
      simp [hh, hnl]
    obtain ⟨ns, ek, _⟩ := headingRegexp_bol k
    have hm := headingRegexp_none_of_level k L k1 k6 h1 h6 kne (text ++ ' ' :: (hashes L ++ []))
    rw [ek] at hm ⊢
    rw [MatchString_bol ns _ lnl, hm]
    rfl

theorem heading_line_rendered_witness :
    (1 ≤ 6 ∧ 6 ≤ 6 ∧ "Deep".toList ≠ [] ∧ '\n' ∉ "Deep".toList ∧ '*' ∉ "Deep".toList ∧
        '~' ∉ "Deep".toList) ∧
      (render "###### Deep ######".toList = "<h5>Deep</h5>".toList ∧
        ∀ k, 1 ≤ k → k ≤ 6 → k ≠ 6 →
          MatchString (headingRegexp k) "###### Deep ######".toList = false) :=
  ⟨by decide,
    heading_line_rendered 6 (by decide) (by decide) "Deep".toList (by decide) (by decide)
      (by decide) (by decide)⟩

/-- C2, evaluation of the code at the failing input: the line
`plain **bold** text` is not rendered as `plain <b>bold</b> text`; the italic
rule, which runs first, takes the space and the asterisks around `*bold*`. -/
theorem bold_after_space_rendered :
    render "plain **bold** text".toList = "plain<i>*bold*</i> text".toList ∧
      render "plain **bold** text".toList ≠ "plain <b>bold</b> text".toList := by
  decide

/-- C3, counterexample: a line of five asterisks consists solely of three or
more characters of the set and is rendered as `<b>*</b>`, not as `<hr>`. -/
theorem rule_line_counterexample :
    (∀ c ∈ "*****".toList, c = '*' ∨ c = '-' ∨ c = '_') ∧ 3 ≤ "*****".toList.length ∧
      render "*****".toList = "<b>*</b>".toList ∧ render "*****".toList ≠ "<hr>".toList := by
  decide

/-- C3 as amended: in every body, every line that consists solely of three or
more characters of `*`, `-`, `_`, and in which `**`, some text and `**` do not
occur in this order, is replaced with exactly `<hr>`; the other lines are
rendered on their own. -/
theorem rule_line_rendered (before after : List Str) (line : Str)
    (hset : ∀ c ∈ line, c = '*' ∨ c = '-' ∨ c = '_') (hlen : 3 ≤ line.length)
    (hbold : ¬ ∃ u w v, w ≠ [] ∧ line = u ++ "**".toList ++ w ++ "**".toList ++ v) :
    render (joinLines (before ++ line :: after)) =
      joinLines (before.map render ++ "<hr>".toList :: after.map render) := by
  have hline : render line = "<hr>".toList := by
    have hhash : '#' ∉ line := fun h => by have := hset _ h; revert this; decide
    have hspace : ' ' ∉ line := fun h => by have := hset _ h; revert this; decide
    have htilde : '~' ∉ line := fun h => by have := hset _ h; revert this; decide
    have hb : ¬ ∃ u w v, w ≠ [] ∧ line = u ++ '*' :: '*' :: (w ++ '*' :: '*' :: v) := by
      rintro ⟨u, w, v, hw, e⟩
      refine hbold ⟨u, w, v, hw, ?_⟩
      rw [e]
      show _ = u ++ ['*', '*'] ++ w ++ ['*', '*'] ++ v
      simp
    have hi : ReplaceAll italicregexp line (wrap "<i>" "</i>") = line :=
      scan_of_lit_not_mem (by decide) _ (c := ' ') (by decide) line none hspace
    rw [render_eq]
    simp only [heading_replace_none_of_no_hash _ _ _ hhash]
    rw [hi, bold_replace_none_of_shape _ _ hb, strike_replace_none _ _ htilde]
    apply hr_replace line hlen
    intro c hc
    rcases hset c hc with rfl | rfl | rfl <;> decide
  rw [render_joinLines]
  simp [hline]

theorem rule_line_rendered_witness :
    ((∀ c ∈ "-*-".toList, c = '*' ∨ c = '-' ∨ c = '_') ∧ 3 ≤ "-*-".toList.length ∧
        ¬ ∃ u w v, w ≠ [] ∧ "-*-".toList = u ++ "**".toList ++ w ++ "**".toList ++ v) ∧
      render (joinLines (["a".toList] ++ "-*-".toList :: ["b".toList])) =
        joinLines ((["a".toList].map render) ++ "<hr>".toList :: (["b".toList].map render)) :=
  have hb : ¬ ∃ u w v, w ≠ [] ∧ "-*-".toList = u ++ "**".toList ++ w ++ "**".toList ++ v := by
    rintro ⟨u, w, v, _, e⟩
    have e' := congrArg List.length e
    have hc := congrArg (List.count '*') e
    simp only [List.count_append] at hc
    have h1 : List.count '*' "-*-".toList = 1 := by decide
    have h2 : List.count '*' "**".toList = 2 := by decide
    omega
  ⟨⟨by decide, by decide, hb⟩, rule_line_rendered ["a".toList] ["b".toList] "-*-".toList
    (by decide) (by decide) hb⟩

/-- C4, evaluation of the code at the failing input: the body `ABC` has none
of the marker characters and is rendered as `<hr>`, because the bracket
expression of the rule pattern is the range from `*` to `_`. -/
theorem capitals_rendered_as_rule :
    (∀ c ∈ "ABC".toList, c ≠ '#' ∧ c ≠ '*' ∧ c ≠ '~' ∧ c ≠ '-' ∧ c ≠ '_') ∧
      render "ABC".toList = "<hr>".toList := by
  decide

/-- The function `renderTemplate` first executes the template. -/
theorem renderTemplate_eq (σ : World) (w : ResponseWriter) (tmpl : Str) (p : Page) :
    ∃ tl, renderTemplate σ w tmpl p = w ++ .execute tmpl p :: tl := by
  unfold renderTemplate
  cases σ.executeFault tmpl p with
  | none => exact ⟨[], rfl⟩
  | some err => exact ⟨[.error err StatusInternalServerError], by simp⟩

theorem renderTemplate_ne_notFound (σ : World) (w : ResponseWriter) (tmpl : Str) (p : Page) :
    renderTemplate σ w tmpl p ≠ w ++ [.notFound] := by
  obtain ⟨tl, htl⟩ := renderTemplate_eq σ w tmpl p
  rw [htl]
  intro h
  have := List.append_cancel_left h
  simp at this

/-- None of the three inner handlers of the program answers with 404. -/
theorem inner_ne_notFound (fn : TitleHandler)
    (hfn : fn = viewHandler ∨ fn = editHandler ∨ fn = saveHandler)
    (w : ResponseWriter) (r : Request) (t : Str) (σ : World) :
    (fn w r t σ).2 ≠ w ++ [.notFound] := by
  rcases hfn with rfl | rfl | rfl
  · unfold viewHandler
    cases loadPage σ t with
    | none => simp
    | some p => exact renderTemplate_ne_notFound _ _ _ _
  · exact renderTemplate_ne_notFound _ _ _ _
  · unfold saveHandler
    simp only
    cases hs : Page.save { Title := t, Body := r.FormValue "body".toList } σ with
    | mk err σ' => cases err <;> simp

/-- C5: for every request path that begins with `/view/`, `/edit/` or
`/save/`, the handler made by `makeHandler` takes as title the path after the
six-character prefix; when the title is not a non-empty run of ASCII letters
and digits it answers 404 and the inner handler plays no part; otherwise the
result is that of the inner handler called once with that title.  With the
inner handlers of the program the answer is the 404 exactly when the title is
not valid. -/
theorem makeHandler_validates (fn : TitleHandler) (w : ResponseWriter) (r : Request)
    (σ : World) (title : Str)
    (hpath : r.Path = "/view/".toList ++ title ∨ r.Path = "/edit/".toList ++ title ∨
      r.Path = "/save/".toList ++ title) :
    r.Path.drop lenPath = title ∧
      (¬ validTitle title → makeHandler fn w r σ = some (σ, w ++ [.notFound])) ∧
      (validTitle title → makeHandler fn w r σ = some (fn w r title σ)) ∧
      (fn = viewHandler ∨ fn = editHandler ∨ fn = saveHandler →
        (makeHandler fn w r σ = some (σ, w ++ [.notFound]) ↔ ¬ validTitle title)) := by
  have hdrop : r.Path.drop lenPath = title := by
    rcases hpath with h | h | h <;> rw [h] <;> rfl
  have hlen : ¬ r.Path.length < lenPath := by
    rcases hpath with h | h | h <;> rw [h, List.length_append] <;>
      simp only [show lenPath = 6 from rfl, show "/view/".toList.length = 6 from rfl,
        show "/edit/".toList.length = 6 from rfl, show "/save/".toList.length = 6 from rfl] <;>
      omega
  have hbad : ¬ validTitle title → makeHandler fn w r σ = some (σ, w ++ [.notFound]) := by
    intro hv
    have : MatchString titleValidator title = false := by
      cases hm : MatchString titleValidator title with
      | false => rfl
      | true => exact absurd ((titleValidator_MatchString title).1 hm) hv
    simp [makeHandler, hlen, hdrop, this]
  have hgood : validTitle title → makeHandler fn w r σ = some (fn w r title σ) := by
    intro hv
    have := (titleValidator_MatchString title).2 hv
    simp [makeHandler, hlen, hdrop, this]
  refine ⟨hdrop, hbad, hgood, fun hfn => ⟨fun h hv => ?_, hbad⟩⟩
  rw [hgood hv] at h
  have := congrArg Prod.snd (Option.some.inj h)
  exact inner_ne_notFound fn hfn w r title σ this

theorem makeHandler_validates_witness :
    (dashRequest.Path = "/view/".toList ++ "has-dash".toList ∨
        dashRequest.Path = "/edit/".toList ++ "has-dash".toList ∨
        dashRequest.Path = "/save/".toList ++ "has-dash".toList) ∧
      ¬ validTitle "has-dash".toList ∧
      makeHandler viewHandler [] dashRequest emptyWorld = some (emptyWorld, [.notFound]) :=
  ⟨Or.inl rfl, by decide,
    (makeHandler_validates viewHandler [] dashRequest emptyWorld "has-dash".toList
      (Or.inl rfl)).2.1 (by decide)⟩

/-- C6, counterexample: the line `# Hello # trailing` has the form of the
claim (level 1, text `Hello`, rest ` trailing`); the heading pattern of level
1 matches it and the renderer rewrites it to `<h1>Hello</h1> trailing`. -/
theorem heading_trailing_counterexample :
    "# Hello # trailing".toList = hashes 1 ++ " ".toList ++ "Hello".toList ++ " ".toList ++
        hashes 1 ++ " trailing".toList ∧
      MatchString (headingRegexp 1) "# Hello # trailing".toList = true ∧
      render "# Hello # trailing".toList = "<h1>Hello</h1> trailing".toList ∧
      render "# Hello # trailing".toList ≠ "# Hello # trailing".toList := by
  decide

/-- C6 as amended: the heading patterns are anchored at the start of the line
only.  For every level `L` from 1 to 6, every non-empty text and every
non-empty rest, all without newline, `*` and `~`, and the rest without `#`,
the line `L` hashes, space, text, space, `L` hashes, rest is matched by the
heading pattern of level `L`, and `renderMarkdown` rewrites it to
`<hN>text</hN>` followed by the rest. -/
theorem heading_start_rendered (L : Nat) (h1 : 1 ≤ L) (h6 : L ≤ 6) (text rest : Str)
    (hne : text ≠ []) (_hrne : rest ≠ []) (hnl : '\n' ∉ text) (hstar : '*' ∉ text)
    (htilde : '~' ∉ text) (rnl : '\n' ∉ rest) (rstar : '*' ∉ rest) (rtilde : '~' ∉ rest)
    (rhash : '#' ∉ rest) :
    MatchString (headingRegexp L)
        (hashes L ++ " ".toList ++ text ++ " ".toList ++ hashes L ++ rest) = true ∧
      render (hashes L ++ " ".toList ++ text ++ " ".toList ++ hashes L ++ rest) =
        openTag (tagLevel L) ++ text ++ closeTag (tagLevel L) ++ rest := by
  have e : hashes L ++ " ".toList ++ text ++ " ".toList ++ hashes L ++ rest =
      hashes L ++ ' ' :: (text ++ ' ' :: (hashes L ++ rest)) := by
    show hashes L ++ [' '] ++ text ++ [' '] ++ hashes L ++ rest = _
    simp
  rw [e]
  constructor
  · have hh : ∀ c, c ≠ '#' → c ∉ hashes L := fun c hc hm => hc (List.eq_of_mem_replicate hm)
    have lnl : '\n' ∉ hashes L ++ ' ' :: (text ++ ' ' :: (hashes L ++ rest)) := by
      simp [hh, hnl, rnl]
    have hm := headingRegexp_match L h1 h6 text rest hne hnl rhash
    simp only [List.append_assoc, List.cons_append] at hm
    obtain ⟨ns, ek, _⟩ := headingRegexp_bol L
    rw [ek] at hm ⊢
    rw [MatchString_bol ns _ lnl, hm]
    rfl
  · have := render_heading L h1 h6 text rest hne hnl hstar htilde rnl rstar rtilde rhash
    simpa using this

theorem heading_start_rendered_witness :
    (1 ≤ 1 ∧ 1 ≤ 6 ∧ "Hello".toList ≠ [] ∧ " trailing".toList ≠ [] ∧ '\n' ∉ "Hello".toList ∧
        '*' ∉ "Hello".toList ∧ '~' ∉ "Hello".toList ∧ '\n' ∉ " trailing".toList ∧
        '*' ∉ " trailing".toList ∧ '~' ∉ " trailing".toList ∧ '#' ∉ " trailing".toList) ∧
      (MatchString (headingRegexp 1) "# Hello # trailing".toList = true ∧
        render "# Hello # trailing".toList = "<h1>Hello</h1> trailing".toList) :=
  ⟨by decide,
    heading_start_rendered 1 (by decide) (by decide) "Hello".toList " trailing".toList
      (by decide) (by decide) (by decide) (by decide) (by decide) (by decide) (by decide)
      (by decide) (by decide)⟩

/-- C7: for every line `pre`, a space, `*`, `text`, `*`, `suf` with a
non-empty text and no newline, `#`, `*`, `~` in `pre`, `text` and `suf`,
`renderMarkdown` gives `pre`, `<i>`, `text`, `</i>`, `suf`: the space before
the asterisk is consumed. -/
theorem italic_line_rendered (pre text suf : Str) (hne : text ≠ [])
    (pnl : '\n' ∉ pre) (phash : '#' ∉ pre) (pstar : '*' ∉ pre) (ptilde : '~' ∉ pre)
    (tnl : '\n' ∉ text) (thash : '#' ∉ text) (tstar : '*' ∉ text) (ttilde : '~' ∉ text)
    (snl : '\n' ∉ suf) (shash : '#' ∉ suf) (sstar : '*' ∉ suf) (stilde : '~' ∉ suf) :
    render (pre ++ " *".toList ++ text ++ "*".toList ++ suf) =
      pre ++ "<i>".toList ++ text ++ "</i>".toList ++ suf := by
  have e : pre ++ " *".toList ++ text ++ "*".toList ++ suf =
      pre ++ ' ' :: '*' :: (text ++ '*' :: suf) := by
    show pre ++ [' ', '*'] ++ text ++ ['*'] ++ suf = _
    simp
  have hhash : '#' ∉ pre ++ ' ' :: '*' :: (text ++ '*' :: suf) := by
    simp only [List.mem_append, List.mem_cons, not_or]
    exact ⟨phash, by decide, by decide, thash, by decide, shash⟩
  have onl : '\n' ∉ pre ++ ("<i>".toList ++ (text ++ ("</i>".toList ++ suf))) := by
    simp only [List.mem_append, not_or]
    exact ⟨pnl, by decide, tnl, by decide, snl⟩
  have ostar : '*' ∉ pre ++ ("<i>".toList ++ (text ++ ("</i>".toList ++ suf))) := by
    simp only [List.mem_append, not_or]
    exact ⟨pstar, by decide, tstar, by decide, sstar⟩
  have otilde : '~' ∉ pre ++ ("<i>".toList ++ (text ++ ("</i>".toList ++ suf))) := by
    simp only [List.mem_append, not_or]
    exact ⟨ptilde, by decide, ttilde, by decide, stilde⟩
  have omem : 'i' ∈ pre ++ ("<i>".toList ++ (text ++ ("</i>".toList ++ suf))) :=
    List.mem_append_right _ (List.mem_append_left _ (by decide))
  rw [e, render_eq]
  simp only [heading_replace_none_of_no_hash _ _ _ hhash]
  rw [italic_replace pre text suf hne tnl pstar sstar, bold_replace_none _ _ ostar,
    strike_replace_none _ _ otilde, hr_replace_none _ _ onl 'i' omem (by decide)]
  simp only [List.append_assoc]

theorem italic_line_rendered_witness :
    ("italic".toList ≠ [] ∧
        ('\n' ∉ "a".toList ∧ '#' ∉ "a".toList ∧ '*' ∉ "a".toList ∧ '~' ∉ "a".toList) ∧
        ('\n' ∉ "italic".toList ∧ '#' ∉ "italic".toList ∧ '*' ∉ "italic".toList ∧
          '~' ∉ "italic".toList) ∧
        ('\n' ∉ " b".toList ∧ '#' ∉ " b".toList ∧ '*' ∉ " b".toList ∧ '~' ∉ " b".toList)) ∧
      render "a *italic* b".toList = "a<i>italic</i> b".toList :=
  ⟨by decide,
    italic_line_rendered "a".toList "italic".toList " b".toList (by decide) (by decide)
      (by decide) (by decide) (by decide) (by decide) (by decide) (by decide) (by decide)
      (by decide) (by decide) (by decide) (by decide)⟩

/-- C8: strikethrough is greedy within a line.  For every line `pre`, `~`,
`text`, `~`, `suf` where the non-empty text may itself contain `~`, `pre` and
`suf` contain none, and no part has a newline, `#` or `*`, `renderMarkdown`
gives `pre`, `<s>`, `text`, `</s>`, `suf`: one substitution from the first `~`
of the line to its last. -/
theorem strike_line_rendered (pre text suf : Str) (hne : text ≠ [])
    (pnl : '\n' ∉ pre) (phash : '#' ∉ pre) (pstar : '*' ∉ pre) (ptilde : '~' ∉ pre)
    (tnl : '\n' ∉ text) (thash : '#' ∉ text) (tstar : '*' ∉ text)
    (snl : '\n' ∉ suf) (shash : '#' ∉ suf) (sstar : '*' ∉ suf) (stilde : '~' ∉ suf) :
    render (pre ++ "~".toList ++ text ++ "~".toList ++ suf) =
      pre ++ "<s>".toList ++ text ++ "</s>".toList ++ suf := by
  have e : pre ++ "~".toList ++ text ++ "~".toList ++ suf =
      pre ++ '~' :: (text ++ '~' :: suf) := by
    show pre ++ ['~'] ++ text ++ ['~'] ++ suf = _
    simp
  have hhash : '#' ∉ pre ++ '~' :: (text ++ '~' :: suf) := by
    simp only [List.mem_append, List.mem_cons, not_or]
    exact ⟨phash, by decide, thash, by decide, shash⟩
  have hstar : '*' ∉ pre ++ '~' :: (text ++ '~' :: suf) := by
    simp only [List.mem_append, List.mem_cons, not_or]
    exact ⟨pstar, by decide, tstar, by decide, sstar⟩
  have onl : '\n' ∉ pre ++ ("<s>".toList ++ (text ++ ("</s>".toList ++ suf))) := by
    simp only [List.mem_append, not_or]
    exact ⟨pnl, by decide, tnl, by decide, snl⟩
  have omem : 's' ∈ pre ++ ("<s>".toList ++ (text ++ ("</s>".toList ++ suf))) :=
    List.mem_append_right _ (List.mem_append_left _ (by decide))
  rw [e, render_eq]
  simp only [heading_replace_none_of_no_hash _ _ _ hhash]
  rw [italic_replace_none _ _ hstar, bold_replace_none _ _ hstar,
    strike_replace pre text suf hne tnl ptilde stilde,
    hr_replace_none _ _ onl 's' omem (by decide)]
  simp only [List.append_assoc]

theorem strike_line_rendered_witness :
    ("a~ b ~c".toList ≠ [] ∧
        ('\n' ∉ ([] : Str) ∧ '#' ∉ ([] : Str) ∧ '*' ∉ ([] : Str) ∧ '~' ∉ ([] : Str)) ∧
        ('\n' ∉ "a~ b ~c".toList ∧ '#' ∉ "a~ b ~c".toList ∧ '*' ∉ "a~ b ~c".toList) ∧
        ('\n' ∉ ([] : Str) ∧ '#' ∉ ([] : Str) ∧ '*' ∉ ([] : Str) ∧ '~' ∉ ([] : Str))) ∧
      render "~a~ b ~c~".toList = "<s>a~ b ~c</s>".toList :=
  ⟨by decide,
    strike_line_rendered [] "a~ b ~c".toList [] (by decide) (by decide) (by decide) (by decide)
      (by decide) (by decide) (by decide) (by decide) (by decide) (by decide) (by decide)
      (by decide)⟩

theorem renderMarkdown_eq (T b : Str) :
    renderMarkdown { Title := T, Body := b } = { Title := T, Body := render b } := rfl

/-- C9: over the page store as a partial map.  For every title `T`, valid ones
included, `viewHandler` answers with the 302 redirect to `/edit/T` exactly when
loading `T` fails; when `T` has the stored body `b` it executes the template
`view` on the page with title `T` and body `renderMarkdown` of `b`; hence after
`saveHandler` has stored the form body under `T` with success, a view of `T`
executes `view` on the rendered form of that body. -/
theorem viewHandler_store (σ : World) (w : ResponseWriter) (r : Request) (T : Str) :
    ((viewHandler w r T σ).2 = w ++ [.redirect ("/edit/".toList ++ T) 302] ↔
        loadPage σ T = none) ∧
      (∀ b, loadPage σ T = some { Title := T, Body := b } →
        viewHandler w r T σ =
            (σ, renderTemplate σ w "view".toList (renderMarkdown { Title := T, Body := b })) ∧
          renderMarkdown { Title := T, Body := b } = { Title := T, Body := render b } ∧
          (viewHandler w r T σ).2.take (w.length + 1) =
            w ++ [.execute "view".toList { Title := T, Body := render b }]) ∧
      (∀ w' r', (saveHandler w' r' T σ).2 = w' ++ [.redirect ("/view/".toList ++ T) 302] →
        loadPage (saveHandler w' r' T σ).1 T =
            some { Title := T, Body := r'.FormValue "body".toList } ∧
          (viewHandler w r T (saveHandler w' r' T σ).1).2.take (w.length + 1) =
            w ++ [.execute "view".toList
              { Title := T, Body := render (r'.FormValue "body".toList) }]) := by
  have hview : ∀ (τ : World) b, loadPage τ T = some { Title := T, Body := b } →
      viewHandler w r T τ =
          (τ, renderTemplate τ w "view".toList (renderMarkdown { Title := T, Body := b })) ∧
        (viewHandler w r T τ).2.take (w.length + 1) =
          w ++ [.execute "view".toList { Title := T, Body := render b }] := by
    intro τ b hb
    have h1 : viewHandler w r T τ =
        (τ, renderTemplate τ w "view".toList (renderMarkdown { Title := T, Body := b })) := by
      simp [viewHandler, hb]
    refine ⟨h1, ?_⟩
    rw [h1, renderMarkdown_eq]
    simp only [renderTemplate]
    cases τ.executeFault "view".toList { Title := T, Body := render b } with
    | none => simp
    | some err => simp [List.take_append_eq_append_take]
  refine ⟨?_, fun b hb => ⟨(hview σ b hb).1, renderMarkdown_eq T b, (hview σ b hb).2⟩, ?_⟩
  · constructor
    · intro h
      cases hl : loadPage σ T with
      | none => rfl
      | some p =>
        exfalso
        have hv : viewHandler w r T σ =
            (σ, renderTemplate σ w "view".toList (renderMarkdown p)) := by
          unfold viewHandler
          rw [hl]
        obtain ⟨tl, htl⟩ := renderTemplate_eq σ w "view".toList (renderMarkdown p)
        rw [hv, htl] at h
        have := List.append_cancel_left h
        simp at this
    · intro h
      simp [viewHandler, h, StatusFound]
  · intro w' r' hs
    have hload : loadPage (saveHandler w' r' T σ).1 T =
        some { Title := T, Body := r'.FormValue "body".toList } := by
      simp only [saveHandler, Page.save, WriteFile] at hs ⊢
      cases hf : σ.writeFault ("data/".toList ++ T ++ ".txt".toList) with
      | some err =>
        rw [hf] at hs
        simp at hs
      | none => simp [loadPage, ReadFile]
    exact ⟨hload, (hview _ _ hload).2⟩

theorem viewHandler_store_witness :
    loadPage emptyWorld "FooBar".toList = none ∧
      (viewHandler [] dashRequest "FooBar".toList emptyWorld).2 =
        [.redirect "/edit/FooBar".toList 302] ∧
      (viewHandler [] dashRequest "FooBar".toList fooBarWorld).2 =
        [.execute "view".toList { Title := "FooBar".toList, Body := "<h1>Hi</h1>".toList }] :=
  ⟨by decide,
    (viewHandler_store emptyWorld [] dashRequest "FooBar".toList).1.2 (by decide),
    ((viewHandler_store emptyWorld [] dashRequest "FooBar".toList).2.2 []
      { Path := "/save/FooBar".toList, FormValue := fun _ => "# Hi #".toList }
      (by decide)).2⟩

/-- C10: `renderMarkdown` works line by line.  For all bodies `a` and `b` the
rendering of `a`, a newline, `b` is the rendering of `a`, a newline, the
rendering of `b`; the rendering has as many newlines as the body; and the
rendering of a body is made of the renderings of its lines, each on its own. -/
theorem renderMarkdown_line_by_line (a b : Str) :
    render (a ++ "\n".toList ++ b) = render a ++ "\n".toList ++ render b ∧
      (render a).count '\n' = a.count '\n' ∧
      ∀ ls : List Str, render (joinLines ls) = joinLines (ls.map render) := by
  refine ⟨?_, render_count_newline a, render_joinLines⟩
  show render (a ++ ['\n'] ++ b) = render a ++ ['\n'] ++ render b
  simpa using render_append_newline a b

end GoWiki
